import Mathlib

set_option maxRecDepth 2000000

/-!
Verification of the core 2D software rasterizer of the `apparatus` engine
(`src/color.rs`, `src/renderer/bresenham.rs`, `src/renderer/software_2d.rs`).

The embedding is shallow:

* `f32` arithmetic inside `Color::linear_blend` is modelled exactly: every
  primitive operation computes the exact rational result and then rounds it to
  the nearest IEEE-754 binary32 value (round half to even) via `flQ`.
  Rationals are represented by the structural type `Q` (integer numerator,
  positive natural denominator, no gcd normalization) so that the kernel can
  evaluate them; `Q` carries exactly the values, only not in lowest terms.
  Overflow to infinity is not modelled (all values on the verified paths are
  tiny), and the single NaN-producing expression in the source
  (`draw_filled_triangle`'s split-point division when `y2 == y0`) is modelled
  explicitly by a branch mirroring Rust's saturating `NaN as u32 = 0` cast.
* Screen coordinates are modelled as exact rationals `ℚ`; on the verified
  paths they hold small integer values, on which `f32` arithmetic is exact.
* Rust numeric casts are modelled by truncation toward zero saturating at
  zero (`f32ToUsize`, `f32ToU32`, and `qToU8` which also saturates at 255);
  the upper `usize`/`u32` saturation bound is never reached on these paths.
* The frame buffer `Vec<u32>` is modelled as a total function `ℕ → ℕ` from
  cell index to packed 32-bit word, updated with `Function.update`.
* Stateful iterators (`BresenhamLine`) become explicit state records with a
  `next` step function; `while`/`for` loops become fuel-indexed recursion,
  and the theorems prove that the supplied fuel suffices.
-/

namespace Apparatus

/-! ## Exact binary32 rounding model -/

/-- Unnormalized rational: `num / den` with `den` kept positive by
construction.  Used for the exact model of `f32` scalar arithmetic. -/
structure Q where
  num : ℤ
  den : ℕ
deriving DecidableEq

/-- Exact rational sum. -/
def qadd (x y : Q) : Q := ⟨x.num * y.den + y.num * x.den, x.den * y.den⟩

/-- Exact rational difference. -/
def qsub (x y : Q) : Q := ⟨x.num * y.den - y.num * x.den, x.den * y.den⟩

/-- Exact rational product. -/
def qmul (x y : Q) : Q := ⟨x.num * y.num, x.den * y.den⟩

/-- Exact rational quotient (sign moved into the numerator so the denominator
stays a natural number). -/
def qdiv (x y : Q) : Q := ⟨x.num * y.den * y.num.sign, x.den * y.num.natAbs⟩

/-- `x ≤ y` on `Q` (denominators positive, so cross-multiplication). -/
def qle (x y : Q) : Prop := x.num * y.den ≤ y.num * x.den

/-- `x < y` on `Q`. -/
def qlt (x y : Q) : Prop := x.num * y.den < y.num * x.den

instance (x y : Q) : Decidable (qle x y) := by unfold qle; infer_instance

instance (x y : Q) : Decidable (qlt x y) := by unfold qlt; infer_instance

/-- Absolute value on `Q`. -/
def qabs (x : Q) : Q := ⟨|x.num|, x.den⟩

/-- Floor of a `Q` value, as an integer. -/
def qfloor (x : Q) : ℤ := Int.fdiv x.num x.den

/-- The constant `1/2` as a `Q` value. -/
def qhalf : Q := ⟨1, 2⟩

/-- `2^e` as a `Q` value, for an integer exponent. -/
def qpow2 (e : ℤ) : Q :=
  if 0 ≤ e then ⟨(2 : ℤ) ^ e.toNat, 1⟩ else ⟨1, 2 ^ (-e).toNat⟩

/-- Structural-recursion base-2 logarithm (fuel-indexed so that the kernel
can evaluate it; `log2Fuel n n` is `⌊log₂ n⌋` for `n ≥ 1`). -/
def log2Fuel : ℕ → ℕ → ℕ
  | 0, _ => 0
  | fuel + 1, n => if n < 2 then 0 else log2Fuel fuel (n / 2) + 1

/-- `⌊log₂ n⌋` for `n ≥ 1` (0 at 0). -/
def natLog2 (n : ℕ) : ℕ := log2Fuel n n

/-- Floor of the base-2 logarithm of a positive `Q` value: the unique `e`
with `2^e ≤ q < 2^(e+1)`, computed from numerator/denominator logarithms
with a final adjustment step. -/
def floorLog2 (q : Q) : ℤ :=
  let e0 : ℤ := (natLog2 q.num.natAbs : ℤ) - (natLog2 q.den : ℤ)
  if qle (qpow2 (e0 + 1)) q then e0 + 1
  else if qle (qpow2 e0) q then e0
  else e0 - 1

/-- Round a `Q` value to the nearest IEEE-754 binary32 value (round half to
even).  Subnormals round on the fixed grid `2^-149`; overflow to infinity is
not modelled (never reached on the verified paths). -/
def flQ (q : Q) : Q :=
  if q.num = 0 then ⟨0, 1⟩
  else
    let n := qabs q
    let e := floorLog2 n
    let scaleExp : ℤ := if e < -126 then -149 else e - 23
    let scale := qpow2 scaleExp
    let m := qdiv n scale
    let fm := qfloor m
    let frac := qsub m ⟨fm, 1⟩
    let r : ℤ :=
      if qlt qhalf frac then fm + 1
      else if qlt frac qhalf then fm
      else if fm % 2 = 0 then fm else fm + 1
    qmul ⟨r * q.num.sign, 1⟩ scale

/-- `f32` addition: exact sum, rounded. -/
def fadd (a b : Q) : Q := flQ (qadd a b)

/-- `f32` subtraction: exact difference, rounded. -/
def fsub (a b : Q) : Q := flQ (qsub a b)

/-- `f32` multiplication: exact product, rounded. -/
def fmul (a b : Q) : Q := flQ (qmul a b)

/-- `f32` division: exact quotient, rounded (the divisor is a nonzero
constant on all verified paths). -/
def fdiv (a b : Q) : Q := flQ (qdiv a b)

/-- Rust `as u8` cast from `f32`: truncate toward zero, saturate to
`[0, 255]` (the verified inputs are nonnegative, where truncation toward
zero is the floor). -/
def qToU8 (x : Q) : ℕ :=
  if x.num < 0 then 0 else min 255 (qfloor x).toNat

/-- A natural number as a `Q` value. -/
def qOfN (n : ℕ) : Q := ⟨n, 1⟩

/-! ## Color and blending (`src/color.rs`) -/

/-- `Color([a, r, g, b])`: four 8-bit channels, stored alpha-first as in the
source array. -/
structure Color where
  a : ℕ
  r : ℕ
  g : ℕ
  b : ℕ
deriving DecidableEq

/-- `Color::rgba(r, g, b, a)`. -/
def Color.rgba (r g b a : ℕ) : Color := ⟨a, r, g, b⟩

/-- `Color::interpolate_scalar(src, dst, t) = dst * (1.0 - t) + src * t`,
with every operation performed in (exactly modelled) `f32`. -/
def Color.interpolate_scalar (src dst t : Q) : Q :=
  fadd (fmul dst (fsub ⟨1, 1⟩ t)) (fmul src t)

/-- `Color::linear_blend(src, dst)`: normalize channels to `[0,1]`,
interpolate with `t = src.a / 255`, rescale, truncate to `u8`; the result is
fully opaque. -/
def Color.linear_blend (src dst : Color) : Color :=
  let t := fdiv (qOfN src.a) (qOfN 255)
  let r :=
    qToU8 (fmul (Color.interpolate_scalar (fdiv (qOfN src.r) (qOfN 255))
      (fdiv (qOfN dst.r) (qOfN 255)) t) (qOfN 255))
  let g :=
    qToU8 (fmul (Color.interpolate_scalar (fdiv (qOfN src.g) (qOfN 255))
      (fdiv (qOfN dst.g) (qOfN 255)) t) (qOfN 255))
  let b :=
    qToU8 (fmul (Color.interpolate_scalar (fdiv (qOfN src.b) (qOfN 255))
      (fdiv (qOfN dst.b) (qOfN 255)) t) (qOfN 255))
  Color.rgba r g b 255

/-- `css::BLACK`. -/
def css.BLACK : Color := Color.rgba 0 0 0 255

/-- `css::WHITE`. -/
def css.WHITE : Color := Color.rgba 255 255 255 255

/-- `u32::from(color)`: big-endian packing of `[a, r, g, b]`
(`0xAARRGGBB`). -/
def colorToU32 (c : Color) : ℕ :=
  c.a * 2 ^ 24 + c.r * 2 ^ 16 + c.g * 2 ^ 8 + c.b

/-- Unpacking of a buffer word into channels, as done inline by
`Renderer::put_pixel`. -/
def u32ToColor (w : ℕ) : Color :=
  Color.rgba (w / 2 ^ 16 % 256) (w / 2 ^ 8 % 256) (w % 256) (w / 2 ^ 24 % 256)

/-! ## Bresenham line walker (`src/renderer/bresenham.rs`)

Coordinates are mathematical integers: the source stores `i32` values cast
from small on-screen `u32` coordinates, for which `i32` arithmetic never
overflows. -/

/-- The full state of a `BresenhamLine` iterator. -/
structure BState where
  x0 : ℤ
  y0 : ℤ
  x1 : ℤ
  y1 : ℤ
  dx : ℤ
  dy : ℤ
  sx : ℤ
  sy : ℤ
  error : ℤ
  line_complete : Bool
deriving DecidableEq

/-- `BresenhamLine::new`. -/
def BresenhamLine.new (x0 y0 x1 y1 : ℤ) : BState :=
  let dx := |x1 - x0|
  let dy := -|y1 - y0|
  let sx : ℤ := if x0 < x1 then 1 else -1
  let sy : ℤ := if y0 < y1 then 1 else -1
  { x0 := x0, y0 := y0, x1 := x1, y1 := y1, dx := dx, dy := dy, sx := sx,
    sy := sy, error := dx + dy, line_complete := false }

/-- One call to `BresenhamLine::next`: the emitted point (if any) and the
successor state.  Mirrors the source exactly: the point is captured on
entry, `error_2` is computed once before both axis branches, and the second
branch reads the error already updated by the first. -/
def BresenhamLine.next (s : BState) : Option (ℤ × ℤ) × BState :=
  if s.line_complete then (none, s)
  else
    let point := (s.x0, s.y0)
    let s1 := if s.x0 = s.x1 ∧ s.y0 = s.y1 then { s with line_complete := true } else s
    let e2 := 2 * s.error
    let s2 :=
      if s1.dy ≤ e2 then
        if s1.x0 = s1.x1 then { s1 with line_complete := true }
        else { s1 with error := s1.error + s1.dy, x0 := s1.x0 + s1.sx }
      else s1
    let s3 :=
      if e2 < s2.dx then
        if s2.y0 = s2.y1 then { s2 with line_complete := true }
        else { s2 with error := s2.error + s2.dx, y0 := s2.y0 + s2.sy }
      else s2
    (some point, s3)

/-- Drive the iterator at most `fuel` times, collecting the emitted points
(the caller's `for`-loop stops at the first `None`). -/
def BresenhamLine.run : ℕ → BState → List (ℤ × ℤ) × BState
  | 0, s => ([], s)
  | fuel + 1, s =>
    match BresenhamLine.next s with
    | (none, s2) => ([], s2)
    | (some p, s2) =>
      let t := BresenhamLine.run fuel s2
      (p :: t.1, t.2)

/-- Remaining distance to the target along the x axis (nonnegative on
reachable states). -/
def aRem (s : BState) : ℤ := s.sx * (s.x1 - s.x0)

/-- Remaining distance to the target along the y axis (nonnegative on
reachable states). -/
def bRem (s : BState) : ℤ := s.sy * (s.y1 - s.y0)

/-- Upper bound on the number of `next` calls until the iterator is
exhausted; strictly decreases at each productive call. -/
def stepsLeft (s : BState) : ℕ :=
  if s.line_complete then 0 else (aRem s + bRem s).toNat + 1

/-- The complete emission sequence of `BresenhamLine::new(x0,y0,x1,y1)`. -/
def BresenhamLine.points (x0 y0 x1 y1 : ℤ) : List (ℤ × ℤ) :=
  (BresenhamLine.run (stepsLeft (BresenhamLine.new x0 y0 x1 y1))
    (BresenhamLine.new x0 y0 x1 y1)).1

/-- Two lattice points at distance at most one in each axis. -/
def stepClose (p q : ℤ × ℤ) : Prop := |q.1 - p.1| ≤ 1 ∧ |q.2 - p.2| ≤ 1

/-- Invariant satisfied by every state reachable from `BresenhamLine::new`:
sign and range facts plus the error-accounting identity tying the error
term to the remaining distances. -/
structure BInv (s : BState) : Prop where
  dx_nonneg : 0 ≤ s.dx
  dy_nonpos : s.dy ≤ 0
  sx_unit : s.sx = 1 ∨ s.sx = -1
  sy_unit : s.sy = 1 ∨ s.sy = -1
  a_nonneg : 0 ≤ aRem s
  a_le : aRem s ≤ s.dx
  b_nonneg : 0 ≤ bRem s
  b_le : bRem s ≤ -s.dy
  err_eq : s.error = s.dx + s.dy - aRem s * s.dy - bRem s * s.dx
  complete_at_end : s.line_complete = true → aRem s = 0 ∧ bRem s = 0

/-! ## Renderer (`src/renderer/software_2d.rs`)

Coordinates are exact rationals; the claim-relevant inputs are small
integers, on which every `f32` coordinate operation in the source is
exact. -/

/-- Rust `as usize` cast from `f32`: truncate toward zero, saturating below
at zero. -/
def f32ToUsize (q : ℚ) : ℕ := ⌊q⌋.toNat

/-- Rust `as u32` cast from `f32`, kept in `ℤ` for use as a lattice
coordinate: truncate toward zero, saturating below at zero (the upper bound
is never reached on the verified paths). -/
def f32ToU32 (q : ℚ) : ℤ := max 0 ⌊q⌋

/-- `maths::clamp(min, value, max)`. -/
def clamp (lo v hi : ℚ) : ℚ := if v < lo then lo else if hi < v then hi else v

/-- The renderer: logical screen size, virtual pixel size, and the frame
buffer (`FrameBuffer.data : Vec<u32>` modelled as a total function from cell
index to word; the font handle is irrelevant to the verified operations). -/
structure Renderer where
  width : ℚ
  height : ℚ
  pixel_width : ℕ
  pixel_height : ℕ
  buffer : ℕ → ℕ

/-- `Renderer::new` for integer screen sizes. -/
def mkRenderer (w h pw ph : ℕ) (buf : ℕ → ℕ) : Renderer :=
  { width := w, height := h, pixel_width := pw, pixel_height := ph, buffer := buf }

/-- `Renderer::put_pixel`: invert y, bounds-check, and blend into the
buffer word at `y * width + x`. -/
def Renderer.put_pixel (rd : Renderer) (x y : ℚ) (color : Color) : Renderer :=
  let yb := rd.height - y
  if 0 ≤ x ∧ x < rd.width ∧ 0 ≤ yb ∧ yb < rd.height then
    let idx := f32ToUsize yb * f32ToUsize rd.width + f32ToUsize x
    let dst := u32ToColor (rd.buffer idx)
    { rd with
      buffer := Function.update rd.buffer idx (colorToU32 (Color.linear_blend color dst)) }
  else rd

/-- `Renderer::clear`: overwrite the whole buffer with one packed color. -/
def Renderer.clear (rd : Renderer) (color : Color) : Renderer :=
  { rd with buffer := fun _ => colorToU32 color }

/-- `Renderer::draw`: scale the logical coordinate by the virtual pixel
size and `put_pixel` every cell of the `pixel_width × pixel_height` block
(each coordinate clamped into the screen first). -/
def Renderer.draw (rd : Renderer) (x y : ℚ) (color : Color) : Renderer :=
  let px := x * (rd.pixel_width : ℚ)
  let py := y * (rd.pixel_height : ℚ)
  (List.range rd.pixel_height).foldl (fun acc (pixel_y : ℕ) =>
    (List.range rd.pixel_width).foldl (fun acc2 (pixel_x : ℕ) =>
      acc2.put_pixel (clamp 0 (px + (pixel_x : ℚ)) acc2.width)
        (clamp 0 (py + (pixel_y : ℚ)) acc2.height) color) acc) rd

/-- `Renderer::draw_line`: floor and clamp the endpoints, add `0.5`, cast
to `u32`, then `draw` every point of the Bresenham walk. -/
def Renderer.draw_line (rd : Renderer) (x0 y0 x1 y1 : ℚ) (color : Color) : Renderer :=
  let cx0 := f32ToU32 (clamp 0 ((⌊x0⌋ : ℚ)) rd.width + 1 / 2)
  let cy0 := f32ToU32 (clamp 0 ((⌊y0⌋ : ℚ)) rd.height + 1 / 2)
  let cx1 := f32ToU32 (clamp 0 ((⌊x1⌋ : ℚ)) rd.width + 1 / 2)
  let cy1 := f32ToU32 (clamp 0 ((⌊y1⌋ : ℚ)) rd.height + 1 / 2)
  (BresenhamLine.points cx0 cy0 cx1 cy1).foldl
    (fun acc p => acc.draw (p.1 : ℚ) (p.2 : ℚ) color) rd

/-- Sequence of raw `put_pixel` calls at integer coordinates (proof helper:
`draw` and `draw_line` reduce to this on the verified paths). -/
def putPixels (rd : Renderer) (ps : List (ℕ × ℕ)) (color : Color) : Renderer :=
  ps.foldl (fun acc p => acc.put_pixel (p.1 : ℚ) (p.2 : ℚ) color) rd

/-- Buffer cell index written by `put_pixel` for the logical coordinate
`(x, y)` on a `w × h` screen: storage row `h - y`, column `x`. -/
def cellIdx (w h x y : ℕ) : ℕ := (h - y) * w + x

/-- The word stored by a blend of `color` over an existing packed word. -/
def blendWord (color : Color) (wv : ℕ) : ℕ :=
  colorToU32 (Color.linear_blend color (u32ToColor wv))

/-! ## Midpoint circle (`draw_wireframe_circle` / `draw_filled_circle`)

The octant loop is pure integer arithmetic; the emitted logical pixel sets
(the coordinates the algorithm hands to the drawing stage, before any
clipping) are what the symmetry claim is about. -/

/-- The midpoint-circle octant loop: collect `(x0, y0)` pairs while
`y0 ≥ x0`, advancing the decision variable exactly as the source does. -/
def circleOctantLoop : ℕ → ℤ → ℤ → ℤ → List (ℤ × ℤ)
  | 0, _, _, _ => []
  | fuel + 1, x0, y0, d =>
    if y0 < x0 then []
    else
      (x0, y0) ::
        (if 0 < d then
          circleOctantLoop fuel (x0 + 1) (y0 - 1) (d + 4 * ((x0 + 1) - (y0 - 1)) + 10)
        else
          circleOctantLoop fuel (x0 + 1) y0 (d + 4 * (x0 + 1) + 6))

/-- The octant pairs for a given radius (`x0 = 0`, `y0 = radius`,
`d = 3 - 2*radius`); the fuel strictly exceeds the loop's iteration
count. -/
def circleOctant (radius : ℤ) : List (ℤ × ℤ) :=
  circleOctantLoop (radius.toNat + 2) 0 radius (3 - 2 * radius)

/-- Logical pixels emitted by `draw_wireframe_circle` centered at `(x,y)`:
the eight symmetric points of every octant pair, in source order. -/
def wireframeCirclePoints (x y radius : ℤ) : List (ℤ × ℤ) :=
  (circleOctant radius).flatMap fun p =>
    [(x + p.1, y + p.2), (x - p.1, y + p.2), (x + p.1, y - p.2), (x - p.1, y - p.2),
     (x + p.2, y + p.1), (x - p.2, y + p.1), (x + p.2, y - p.1), (x - p.2, y - p.1)]

/-- Horizontal spans requested by `draw_filled_circle` (endpoint pairs of
its four `draw_line` calls per octant pair, in source order). -/
def filledCircleSpans (x y radius : ℤ) : List ((ℤ × ℤ) × (ℤ × ℤ)) :=
  (circleOctant radius).flatMap fun p =>
    [((x - p.1, y - p.2), (x + p.1, y - p.2)),
     ((x - p.2, y - p.1), (x + p.2, y - p.1)),
     ((x - p.2, y + p.1), (x + p.2, y + p.1)),
     ((x - p.1, y + p.2), (x + p.1, y + p.2))]

/-- Membership in the logical pixel set emitted by `draw_filled_circle`:
some requested span's Bresenham walk emits the point. -/
def filledCirclePixels (x y radius : ℤ) (q : ℤ × ℤ) : Prop :=
  ∃ s ∈ filledCircleSpans x y radius,
    q ∈ BresenhamLine.points s.1.1 s.1.2 s.2.1 s.2.2

/-- Rotation by 90 degrees about the center `(cx, cy)`:
the offset `(u, v)` maps to `(-v, u)`. -/
def rotAbout (cx cy : ℤ) (q : ℤ × ℤ) : ℤ × ℤ :=
  (cx - (q.2 - cy), cy + (q.1 - cx))

/-- Specification predicate for states of the octant loop: the list is
exactly a run from `(x, y)` to the recorded end state `(xe, ye)`, with the
guard `x ≤ y` at every emitted pair and `y` decreasing by zero or one per
step.  The decision variable is abstracted by the disjunction. -/
def IsOct (xe ye : ℤ) : ℤ → ℤ → List (ℤ × ℤ) → Prop
  | x, y, [] => y < x ∧ xe = x ∧ ye = y
  | x, y, p :: t =>
    p.1 = x ∧ p.2 = y ∧ x ≤ y ∧ (IsOct xe ye (x + 1) y t ∨ IsOct xe ye (x + 1) (y - 1) t)

/-! ## Filled-triangle control flow (`draw_filled_triangle`)

Only the loop control is modelled: the buffer writes of the inner
`draw_line` calls do not feed back into any loop condition, so termination
is a property of the tracker states alone.  `none` marks fuel exhaustion;
the termination theorem proves the chosen fuel suffices. -/

/-- One execution of the `for (x, y) in walker.by_ref()` advance loop in
`fill_inner_triangle`: consume walker points until one rises strictly above
the current scan row (update and break) or the walker is exhausted. -/
def advanceTracker : ℕ → BState → (ℤ × ℤ) → Option (BState × (ℤ × ℤ))
  | 0, _, _ => none
  | fuel + 1, w, cur =>
    match BresenhamLine.next w with
    | (none, w2) => some (w2, cur)
    | (some p, w2) => if cur.2 < p.2 then some (w2, p) else advanceTracker fuel w2 cur

/-- The `while` loop shared by `fill_flat_top_triangle` and
`fill_flat_bottom_triangle`: while both trackers are below their target
rows, draw a scan line (a pure buffer effect, omitted) and advance both
trackers. -/
def fillHalfLoop : ℕ → BState → BState → (ℤ × ℤ) → (ℤ × ℤ) → ℤ → ℤ → Option Unit
  | 0, _, _, _, _, _, _ => none
  | fuel + 1, wl, wr, curL, curR, tL, tR =>
    if curL.2 < tL ∧ curR.2 < tR then
      match advanceTracker (stepsLeft wl + 1) wl curL with
      | none => none
      | some (wl2, curL2) =>
        match advanceTracker (stepsLeft wr + 1) wr curR with
        | none => none
        | some (wr2, curR2) => fillHalfLoop fuel wl2 wr2 curL2 curR2 tL tR
    else some ()

/-- `fill_flat_bottom_triangle(x0,y0,x1,y1,x2,y2)`: left walker
`(x0,y0) → (x2,y2)`, right walker `(x1,y1) → (x2,y2)`, both guards against
`y2`. -/
def fill_flat_bottom_triangle (x0 y0 x1 y1 x2 y2 : ℤ) : Option Unit :=
  let wl := BresenhamLine.new x0 y0 x2 y2
  let wr := BresenhamLine.new x1 y1 x2 y2
  fillHalfLoop (stepsLeft wl + stepsLeft wr + 1) wl wr (x0, y0) (x1, y1) y2 y2

/-- `fill_flat_top_triangle(x0,y0,x1,y1,x2,y2)`: left walker
`(x0,y0) → (x1,y1)` guarded against `y1`, right walker `(x0,y0) → (x2,y2)`
guarded against `y2`. -/
def fill_flat_top_triangle (x0 y0 x1 y1 x2 y2 : ℤ) : Option Unit :=
  let wl := BresenhamLine.new x0 y0 x1 y1
  let wr := BresenhamLine.new x0 y0 x2 y2
  fillHalfLoop (stepsLeft wl + stepsLeft wr + 1) wl wr (x0, y0) (x0, y0) y1 y2

/-- Control flow of `Renderer::draw_filled_triangle`: the three conditional
vertex swaps, the split-point computation (when `y2 == y0` the `f32`
division yields NaN and Rust's saturating cast sends it to `0`, modelled by
the explicit branch; the inessential `f32` rounding of the division in the
other branch is not modelled), the casts to `u32`, and the two half fills. -/
def draw_filled_triangle_control (px0 py0 px1 py1 px2 py2 : ℚ) : Option Unit :=
  let q0 := if py1 < py0 then (px1, py1) else (px0, py0)
  let q1 := if py1 < py0 then (px0, py0) else (px1, py1)
  let r0 := if py2 < q0.2 then (px2, py2) else q0
  let r2 := if py2 < q0.2 then q0 else (px2, py2)
  let v2 := if r2.2 < q1.2 then q1 else r2
  let v1 := if r2.2 < q1.2 then r2 else q1
  let x3 : ℤ :=
    if v2.2 = r0.2 then 0
    else f32ToU32 (r0.1 + ((v1.2 - r0.2) / (v2.2 - r0.2)) * (v2.1 - r0.1))
  let u0 := f32ToU32 r0.1
  let w0 := f32ToU32 r0.2
  let u1 := f32ToU32 v1.1
  let w1 := f32ToU32 v1.2
  let u2 := f32ToU32 v2.1
  let w2 := f32ToU32 v2.2
  match fill_flat_bottom_triangle u1 w1 x3 w1 u2 w2 with
  | none => none
  | some _ => fill_flat_top_triangle u0 w0 u1 w1 x3 w1

/-! # Theorems -/

/-! ## Blending facts -/

/-- Multiplying any `f32` value by the canonical zero yields the canonical
zero (`flQ` collapses every zero-valued rational to `⟨0, 1⟩`). -/
theorem fmul_zero_right (x : Q) : fmul x ⟨0, 1⟩ = ⟨0, 1⟩ := by
  simp [fmul, qmul, flQ]

/-- `1 - 255/255` rounds to the canonical zero. -/
theorem fsub_one_t255 : fsub ⟨1, 1⟩ (fdiv (qOfN 255) (qOfN 255)) = ⟨0, 1⟩ := by decide

/-- `0/255` rounds to the canonical zero. -/
theorem fdiv_zero_255 : fdiv (qOfN 0) (qOfN 255) = ⟨0, 1⟩ := by decide

/-- Per-channel round trip for a fully opaque source: normalizing a channel
value, scaling by `t = 1`, rescaling by 255 and truncating recovers the
channel exactly, for every 8-bit value. -/
theorem opaque_channel_roundtrip :
    ∀ c : Fin 256,
      qToU8 (fmul (fadd ⟨0, 1⟩ (fmul (fdiv (qOfN c) (qOfN 255))
        (fdiv (qOfN 255) (qOfN 255)))) (qOfN 255)) = c := by decide

/-- Per-channel round trip for a fully transparent source: the destination
channel survives normalization, scaling by `1 - t = 1`, and rescaling, for
every 8-bit value. -/
theorem transparent_channel_roundtrip :
    ∀ d : Fin 256,
      qToU8 (fmul (fadd (fmul (fdiv (qOfN d) (qOfN 255)) (fsub ⟨1, 1⟩ ⟨0, 1⟩))
        ⟨0, 1⟩) (qOfN 255)) = d := by decide

/-- C3: a fully opaque source replaces the destination exactly, and a fully
transparent source leaves each color channel of the destination unchanged
(for an 8-bit destination with alpha 255). -/
theorem linear_blend_opaque_and_transparent :
    (∀ r g b : ℕ, r < 256 → g < 256 → b < 256 → ∀ dst : Color,
       Color.linear_blend (Color.rgba r g b 255) dst = Color.rgba r g b 255) ∧
    (∀ r g b : ℕ, ∀ dst : Color, dst.a = 255 →
       dst.r < 256 → dst.g < 256 → dst.b < 256 →
       (Color.linear_blend (Color.rgba r g b 0) dst).r = dst.r ∧
       (Color.linear_blend (Color.rgba r g b 0) dst).g = dst.g ∧
       (Color.linear_blend (Color.rgba r g b 0) dst).b = dst.b) := by
  constructor
  · intro r g b hr hg hb dst
    show Color.rgba _ _ _ 255 = Color.rgba r g b 255
    simp only [Color.linear_blend, Color.interpolate_scalar, Color.rgba]
    rw [fsub_one_t255, fmul_zero_right, fmul_zero_right, fmul_zero_right]
    have hR := opaque_channel_roundtrip ⟨r, hr⟩
    have hG := opaque_channel_roundtrip ⟨g, hg⟩
    have hB := opaque_channel_roundtrip ⟨b, hb⟩
    simp only [Fin.val_mk] at hR hG hB
    simp [hR, hG, hB]
  · intro r g b dst _ hdr hdg hdb
    simp only [Color.linear_blend, Color.interpolate_scalar, Color.rgba]
    rw [fdiv_zero_255, fmul_zero_right, fmul_zero_right, fmul_zero_right]
    have hR := transparent_channel_roundtrip ⟨dst.r, hdr⟩
    have hG := transparent_channel_roundtrip ⟨dst.g, hdg⟩
    have hB := transparent_channel_roundtrip ⟨dst.b, hdb⟩
    simp only [Fin.val_mk] at hR hG hB
    exact ⟨hR, hG, hB⟩

/-- Witness for C3 at concrete inputs. -/
theorem linear_blend_opaque_and_transparent_witness :
    (5 : ℕ) < 256 ∧
    Color.linear_blend (Color.rgba 5 6 7 255) (Color.rgba 9 8 3 255) =
      Color.rgba 5 6 7 255 ∧
    (Color.linear_blend (Color.rgba 5 6 7 0) (Color.rgba 9 8 3 255)).r = 9 :=
  ⟨by decide,
   linear_blend_opaque_and_transparent.1 5 6 7 (by decide) (by decide) (by decide) _,
   (linear_blend_opaque_and_transparent.2 5 6 7 (Color.rgba 9 8 3 255)
     (by decide) (by decide) (by decide) (by decide)).1⟩

/-- C9: blending a semi-transparent color is not idempotent — a second
blend of the same source over the once-blended value changes the pixel
again. -/
theorem blend_not_idempotent :
    ∃ src dst : Color, 0 < src.a ∧ src.a < 255 ∧
      Color.linear_blend src (Color.linear_blend src dst) ≠
        Color.linear_blend src dst :=
  ⟨Color.rgba 255 255 255 128, Color.rgba 0 0 0 255, by decide, by decide, by decide⟩

/-! ## put_pixel no-op behavior -/

/-- C10: the bottommost logical row is unreachable — `put_pixel(x, 0, c)`
is the identity on the renderer for every state, because the y-inversion
maps logical `0` to row `height`, which fails the `row < height` bounds
check. -/
theorem put_pixel_bottom_row_noop (rd : Renderer) (x : ℚ) (color : Color) :
    rd.put_pixel x 0 color = rd := by
  simp [Renderer.put_pixel]

/-- C4: `put_pixel` silently drops every out-of-range coordinate — if `x`
is outside `[0, width)` or the inverted row `height - y` is outside
`[0, height)`, the renderer (in particular every buffer cell) is left
unchanged, and no error is signalled. -/
theorem put_pixel_out_of_range_noop (rd : Renderer) (x y : ℚ) (color : Color)
    (h : ¬(0 ≤ x ∧ x < rd.width) ∨ ¬(0 ≤ rd.height - y ∧ rd.height - y < rd.height)) :
    rd.put_pixel x y color = rd := by
  unfold Renderer.put_pixel
  rw [if_neg]
  tauto

/-- Witness for C4 at a concrete out-of-range input. -/
theorem put_pixel_out_of_range_noop_witness :
    (¬(0 ≤ (-1 : ℚ) ∧ (-1 : ℚ) < (mkRenderer 4 4 1 1 fun _ => 0).width) ∨
      ¬(0 ≤ (mkRenderer 4 4 1 1 fun _ => 0).height - 2 ∧
        (mkRenderer 4 4 1 1 fun _ => 0).height - 2 <
          (mkRenderer 4 4 1 1 fun _ => 0).height)) ∧
    (mkRenderer 4 4 1 1 fun _ => 0).put_pixel (-1) 2 css.WHITE =
      mkRenderer 4 4 1 1 fun _ => 0 :=
  ⟨Or.inl fun hc => absurd hc.1 (by norm_num),
   put_pixel_out_of_range_noop _ _ _ _ (Or.inl fun hc => absurd hc.1 (by norm_num))⟩

/-! ## Bresenham walker correctness -/

theorem aRem_zero_iff {s : BState} (hs : BInv s) : aRem s = 0 ↔ s.x0 = s.x1 := by
  unfold aRem
  rcases hs.sx_unit with h | h <;> rw [h] <;> omega

theorem bRem_zero_iff {s : BState} (hs : BInv s) : bRem s = 0 ↔ s.y0 = s.y1 := by
  unfold bRem
  rcases hs.sy_unit with h | h <;> rw [h] <;> omega

theorem next_of_complete {s : BState} (h : s.line_complete = true) :
    BresenhamLine.next s = (none, s) := by
  unfold BresenhamLine.next
  rw [if_pos h]

theorem next_at_end {s : BState} (hc : s.line_complete = false)
    (hx : s.x0 = s.x1) (hy : s.y0 = s.y1) :
    BresenhamLine.next s = (some (s.x0, s.y0), { s with line_complete := true }) := by
  simp only [BresenhamLine.next, hc, Bool.false_eq_true, if_false, hx, hy, and_self, if_true]
  by_cases h2 : s.dy ≤ 2 * s.error <;> by_cases h3 : 2 * s.error < s.dx <;>
    simp [h2, h3]

theorem next_step_x {s : BState} (hc : s.line_complete = false)
    (hxne : s.x0 ≠ s.x1) (h2 : s.dy ≤ 2 * s.error) (h3 : ¬(2 * s.error < s.dx)) :
    BresenhamLine.next s =
      (some (s.x0, s.y0), { s with error := s.error + s.dy, x0 := s.x0 + s.sx }) := by
  simp [BresenhamLine.next, hc, hxne, h2, h3]

theorem next_step_y {s : BState} (hc : s.line_complete = false)
    (hyne : s.y0 ≠ s.y1) (h2 : ¬(s.dy ≤ 2 * s.error)) (h3 : 2 * s.error < s.dx) :
    BresenhamLine.next s =
      (some (s.x0, s.y0), { s with error := s.error + s.dx, y0 := s.y0 + s.sy }) := by
  simp [BresenhamLine.next, hc, hyne, h2, h3]

theorem next_step_xy {s : BState} (hc : s.line_complete = false)
    (hxne : s.x0 ≠ s.x1) (hyne : s.y0 ≠ s.y1)
    (h2 : s.dy ≤ 2 * s.error) (h3 : 2 * s.error < s.dx) :
    BresenhamLine.next s =
      (some (s.x0, s.y0),
        { s with error := s.error + s.dy + s.dx, x0 := s.x0 + s.sx, y0 := s.y0 + s.sy }) := by
  simp [BresenhamLine.next, hc, hxne, hyne, h2, h3]

theorem no_premature_x {s : BState} (hs : BInv s) (ha0 : aRem s = 0) (hb : bRem s ≠ 0) :
    2 * s.error < s.dy := by
  have hb1 : 1 ≤ bRem s := by have := hs.b_nonneg; omega
  have herr2 : s.error = s.dx + s.dy - bRem s * s.dx := by
    rw [hs.err_eq, ha0]; ring
  have hmul : 1 * s.dx ≤ bRem s * s.dx :=
    mul_le_mul_of_nonneg_right hb1 hs.dx_nonneg
  rw [one_mul] at hmul
  have hble := hs.b_le
  have hdy := hs.dy_nonpos
  linarith

theorem no_premature_y {s : BState} (hs : BInv s) (hb0 : bRem s = 0) (ha : aRem s ≠ 0) :
    s.dx ≤ 2 * s.error := by
  have ha1 : 1 ≤ aRem s := by have := hs.a_nonneg; omega
  have herr2 : s.error = s.dx + s.dy - aRem s * s.dy := by
    rw [hs.err_eq, hb0]; ring
  have key : 0 ≤ (aRem s - 1) * (-s.dy) :=
    mul_nonneg (by omega) (by linarith [hs.dy_nonpos])
  have hdx := hs.dx_nonneg
  nlinarith [key]

theorem stepx_facts {s t : BState} (hs : BInv s) (hc : s.line_complete = false)
    (hxne : s.x0 ≠ s.x1)
    (ht : t = { s with error := s.error + s.dy, x0 := s.x0 + s.sx }) :
    BInv t ∧ aRem t = aRem s - 1 ∧ bRem t = bRem s := by
  subst ht
  have ha1 : 1 ≤ aRem s := by
    have h0 := hs.a_nonneg
    have hne : aRem s ≠ 0 := by rw [ne_eq, aRem_zero_iff hs]; exact hxne
    omega
  have haT : aRem { s with error := s.error + s.dy, x0 := s.x0 + s.sx } = aRem s - 1 := by
    rcases hs.sx_unit with h | h <;> simp [aRem, h] <;> ring
  have hbT : bRem { s with error := s.error + s.dy, x0 := s.x0 + s.sx } = bRem s := by
    simp [bRem]
  refine ⟨⟨hs.dx_nonneg, hs.dy_nonpos, hs.sx_unit, hs.sy_unit, ?_, ?_, ?_, ?_, ?_, ?_⟩,
    haT, hbT⟩
  · rw [haT]; show 0 ≤ aRem s - 1; omega
  · rw [haT]; show aRem s - 1 ≤ s.dx; have := hs.a_le; omega
  · rw [hbT]; exact hs.b_nonneg
  · rw [hbT]; exact hs.b_le
  · rw [haT, hbT]
    show s.error + s.dy = s.dx + s.dy - (aRem s - 1) * s.dy - bRem s * s.dx
    linear_combination hs.err_eq
  · intro h
    rw [show ({ s with error := s.error + s.dy, x0 := s.x0 + s.sx } :
      BState).line_complete = s.line_complete from rfl, hc] at h
    simp at h

theorem stepy_facts {s t : BState} (hs : BInv s) (hc : s.line_complete = false)
    (hyne : s.y0 ≠ s.y1)
    (ht : t = { s with error := s.error + s.dx, y0 := s.y0 + s.sy }) :
    BInv t ∧ aRem t = aRem s ∧ bRem t = bRem s - 1 := by
  subst ht
  have hb1 : 1 ≤ bRem s := by
    have h0 := hs.b_nonneg
    have hne : bRem s ≠ 0 := by rw [ne_eq, bRem_zero_iff hs]; exact hyne
    omega
  have hbT : bRem { s with error := s.error + s.dx, y0 := s.y0 + s.sy } = bRem s - 1 := by
    rcases hs.sy_unit with h | h <;> simp [bRem, h] <;> ring
  have haT : aRem { s with error := s.error + s.dx, y0 := s.y0 + s.sy } = aRem s := by
    simp [aRem]
  refine ⟨⟨hs.dx_nonneg, hs.dy_nonpos, hs.sx_unit, hs.sy_unit, ?_, ?_, ?_, ?_, ?_, ?_⟩,
    haT, hbT⟩
  · rw [haT]; exact hs.a_nonneg
  · rw [haT]; exact hs.a_le
  · rw [hbT]; show 0 ≤ bRem s - 1; omega
  · rw [hbT]; show bRem s - 1 ≤ -s.dy; have := hs.b_le; omega
  · rw [haT, hbT]
    show s.error + s.dx = s.dx + s.dy - aRem s * s.dy - (bRem s - 1) * s.dx
    linear_combination hs.err_eq
  · intro h
    rw [show ({ s with error := s.error + s.dx, y0 := s.y0 + s.sy } :
      BState).line_complete = s.line_complete from rfl, hc] at h
    simp at h

theorem stepxy_facts {s t : BState} (hs : BInv s) (hc : s.line_complete = false)
    (hxne : s.x0 ≠ s.x1) (hyne : s.y0 ≠ s.y1)
    (ht : t = { s with error := s.error + s.dy + s.dx, x0 := s.x0 + s.sx, y0 := s.y0 + s.sy }) :
    BInv t ∧ aRem t = aRem s - 1 ∧ bRem t = bRem s - 1 := by
  subst ht
  have ha1 : 1 ≤ aRem s := by
    have h0 := hs.a_nonneg
    have hne : aRem s ≠ 0 := by rw [ne_eq, aRem_zero_iff hs]; exact hxne
    omega
  have hb1 : 1 ≤ bRem s := by
    have h0 := hs.b_nonneg
    have hne : bRem s ≠ 0 := by rw [ne_eq, bRem_zero_iff hs]; exact hyne
    omega
  have haT : aRem { s with error := s.error + s.dy + s.dx, x0 := s.x0 + s.sx, y0 := s.y0 + s.sy } = aRem s - 1 := by
    rcases hs.sx_unit with h | h <;> simp [aRem, h] <;> ring
  have hbT : bRem { s with error := s.error + s.dy + s.dx, x0 := s.x0 + s.sx, y0 := s.y0 + s.sy } = bRem s - 1 := by
    rcases hs.sy_unit with h | h <;> simp [bRem, h] <;> ring
  refine ⟨⟨hs.dx_nonneg, hs.dy_nonpos, hs.sx_unit, hs.sy_unit, ?_, ?_, ?_, ?_, ?_, ?_⟩,
    haT, hbT⟩
  · rw [haT]; show 0 ≤ aRem s - 1; omega
  · rw [haT]; show aRem s - 1 ≤ s.dx; have := hs.a_le; omega
  · rw [hbT]; show 0 ≤ bRem s - 1; omega
  · rw [hbT]; show bRem s - 1 ≤ -s.dy; have := hs.b_le; omega
  · rw [haT, hbT]
    show s.error + s.dy + s.dx =
      s.dx + s.dy - (aRem s - 1) * s.dy - (bRem s - 1) * s.dx
    linear_combination hs.err_eq
  · intro h
    rw [show ({ s with error := s.error + s.dy + s.dx, x0 := s.x0 + s.sx, y0 := s.y0 + s.sy } : BState).line_complete = s.line_complete from rfl, hc] at h
    simp at h

theorem end_facts {s : BState} (hs : BInv s) (hx : s.x0 = s.x1) (hy : s.y0 = s.y1) :
    BInv { s with line_complete := true } := by
  have haT : aRem { s with line_complete := true } = aRem s := by simp [aRem]
  have hbT : bRem { s with line_complete := true } = bRem s := by simp [bRem]
  refine ⟨hs.dx_nonneg, hs.dy_nonpos, hs.sx_unit, hs.sy_unit, ?_, ?_, ?_, ?_, ?_, ?_⟩
  · rw [haT]; exact hs.a_nonneg
  · rw [haT]; exact hs.a_le
  · rw [hbT]; exact hs.b_nonneg
  · rw [hbT]; exact hs.b_le
  · rw [haT, hbT]; exact hs.err_eq
  · intro _
    rw [haT, hbT]
    exact ⟨(aRem_zero_iff hs).mpr hx, (bRem_zero_iff hs).mpr hy⟩

theorem next_spec {s : BState} (hs : BInv s) (hc : s.line_complete = false) :
    (BresenhamLine.next s).1 = some (s.x0, s.y0) ∧
    BInv (BresenhamLine.next s).2 ∧
    (BresenhamLine.next s).2.x1 = s.x1 ∧ (BresenhamLine.next s).2.y1 = s.y1 ∧
    ((s.x0 = s.x1 ∧ s.y0 = s.y1 ∧ (BresenhamLine.next s).2.line_complete = true ∧
        (BresenhamLine.next s).2.x0 = s.x0 ∧ (BresenhamLine.next s).2.y0 = s.y0) ∨
     (¬(s.x0 = s.x1 ∧ s.y0 = s.y1) ∧ (BresenhamLine.next s).2.line_complete = false ∧
        aRem (BresenhamLine.next s).2 + bRem (BresenhamLine.next s).2 <
          aRem s + bRem s ∧
        stepClose (s.x0, s.y0) ((BresenhamLine.next s).2.x0, (BresenhamLine.next s).2.y0))) := by
  by_cases hx : s.x0 = s.x1 <;> by_cases hy : s.y0 = s.y1
  · rw [next_at_end hc hx hy]
    exact ⟨rfl, end_facts hs hx hy, rfl, rfl, Or.inl ⟨hx, hy, rfl, rfl, rfl⟩⟩
  · have hb : bRem s ≠ 0 := by rw [ne_eq, bRem_zero_iff hs]; exact hy
    have h2s := no_premature_x hs ((aRem_zero_iff hs).mpr hx) hb
    have h2 : ¬(s.dy ≤ 2 * s.error) := not_le.mpr h2s
    have h3 : 2 * s.error < s.dx := by
      have := hs.dx_nonneg; have := hs.dy_nonpos; linarith
    rw [next_step_y hc hy h2 h3]
    obtain ⟨hinv, haT, hbT⟩ := stepy_facts hs hc hy rfl
    refine ⟨rfl, hinv, rfl, rfl, Or.inr ⟨fun h => hy h.2, hc, ?_, ?_, ?_⟩⟩
    · rw [haT, hbT]; omega
    · simp
    · show |s.y0 + s.sy - s.y0| ≤ 1
      rcases hs.sy_unit with h | h <;> simp [h]
  · have ha : aRem s ≠ 0 := by rw [ne_eq, aRem_zero_iff hs]; exact hx
    have h3s := no_premature_y hs ((bRem_zero_iff hs).mpr hy) ha
    have h3 : ¬(2 * s.error < s.dx) := not_lt.mpr h3s
    have h2 : s.dy ≤ 2 * s.error := by
      have := hs.dx_nonneg; have := hs.dy_nonpos; linarith
    rw [next_step_x hc hx h2 h3]
    obtain ⟨hinv, haT, hbT⟩ := stepx_facts hs hc hx rfl
    refine ⟨rfl, hinv, rfl, rfl, Or.inr ⟨fun h => hx h.1, hc, ?_, ?_, ?_⟩⟩
    · rw [haT, hbT]; omega
    · show |s.x0 + s.sx - s.x0| ≤ 1
      rcases hs.sx_unit with h | h <;> simp [h]
    · simp
  · by_cases h2 : s.dy ≤ 2 * s.error <;> by_cases h3 : 2 * s.error < s.dx
    · rw [next_step_xy hc hx hy h2 h3]
      obtain ⟨hinv, haT, hbT⟩ := stepxy_facts hs hc hx hy rfl
      refine ⟨rfl, hinv, rfl, rfl, Or.inr ⟨fun h => hx h.1, hc, ?_, ?_, ?_⟩⟩
      · rw [haT, hbT]; omega
      · show |s.x0 + s.sx - s.x0| ≤ 1
        rcases hs.sx_unit with h | h <;> simp [h]
      · show |s.y0 + s.sy - s.y0| ≤ 1
        rcases hs.sy_unit with h | h <;> simp [h]
    · rw [next_step_x hc hx h2 h3]
      obtain ⟨hinv, haT, hbT⟩ := stepx_facts hs hc hx rfl
      refine ⟨rfl, hinv, rfl, rfl, Or.inr ⟨fun h => hx h.1, hc, ?_, ?_, ?_⟩⟩
      · rw [haT, hbT]; omega
      · show |s.x0 + s.sx - s.x0| ≤ 1
        rcases hs.sx_unit with h | h <;> simp [h]
      · simp
    · rw [next_step_y hc hy h2 h3]
      obtain ⟨hinv, haT, hbT⟩ := stepy_facts hs hc hy rfl
      refine ⟨rfl, hinv, rfl, rfl, Or.inr ⟨fun h => hy h.2, hc, ?_, ?_, ?_⟩⟩
      · rw [haT, hbT]; omega
      · simp
      · show |s.y0 + s.sy - s.y0| ≤ 1
        rcases hs.sy_unit with h | h <;> simp [h]
    · exfalso
      have := hs.dx_nonneg; have := hs.dy_nonpos
      rw [not_le] at h2; rw [not_lt] at h3
      linarith

theorem new_inv (x0 y0 x1 y1 : ℤ) : BInv (BresenhamLine.new x0 y0 x1 y1) := by
  have hA : aRem (BresenhamLine.new x0 y0 x1 y1) = |x1 - x0| := by
    simp only [BresenhamLine.new, aRem]
    split_ifs with h
    · rw [abs_of_nonneg (by omega : (0:ℤ) ≤ x1 - x0)]; ring
    · rw [abs_of_nonpos (by omega : x1 - x0 ≤ 0)]; ring
  have hB : bRem (BresenhamLine.new x0 y0 x1 y1) = |y1 - y0| := by
    simp only [BresenhamLine.new, bRem]
    split_ifs with h
    · rw [abs_of_nonneg (by omega : (0:ℤ) ≤ y1 - y0)]; ring
    · rw [abs_of_nonpos (by omega : y1 - y0 ≤ 0)]; ring
  have hdx : (BresenhamLine.new x0 y0 x1 y1).dx = |x1 - x0| := by
    simp [BresenhamLine.new]
  have hdy : (BresenhamLine.new x0 y0 x1 y1).dy = -|y1 - y0| := by
    simp [BresenhamLine.new]
  have herr : (BresenhamLine.new x0 y0 x1 y1).error = |x1 - x0| + -|y1 - y0| := by
    simp [BresenhamLine.new]
  refine ⟨?_, ?_, ?_, ?_, ?_, ?_, ?_, ?_, ?_, ?_⟩
  · rw [hdx]; exact abs_nonneg _
  · rw [hdy]; simp [abs_nonneg]
  · simp only [BresenhamLine.new]; split_ifs <;> simp
  · simp only [BresenhamLine.new]; split_ifs <;> simp
  · rw [hA]; exact abs_nonneg _
  · rw [hA, hdx]
  · rw [hB]; exact abs_nonneg _
  · rw [hB, hdy]; simp
  · rw [herr, hA, hB, hdx, hdy]; ring
  · intro h
    simp [BresenhamLine.new] at h

theorem run_complete {s : BState} (h : s.line_complete = true) (f : ℕ) :
    BresenhamLine.run f s = ([], s) := by
  cases f with
  | zero => rfl
  | succ n => simp [BresenhamLine.run, next_of_complete h]

theorem run_spec :
    ∀ (f : ℕ) (s : BState), BInv s → s.line_complete = false → stepsLeft s ≤ f →
      (BresenhamLine.run f s).1.head? = some (s.x0, s.y0) ∧
      (BresenhamLine.run f s).1.getLast? = some (s.x1, s.y1) ∧
      (BresenhamLine.run f s).1.count (s.x1, s.y1) = 1 ∧
      List.Chain' stepClose (BresenhamLine.run f s).1 ∧
      (BresenhamLine.run f s).2.line_complete = true := by
  intro f
  induction f with
  | zero => intro s _ hc hf; exfalso; simp [stepsLeft, hc] at hf
  | succ n ih =>
    intro s hs hc hf
    obtain ⟨h1, hinv, hx1, hy1, hcase⟩ := next_spec hs hc
    have hpair : BresenhamLine.next s = (some (s.x0, s.y0), (BresenhamLine.next s).2) := by
      rw [← h1]
    have hrun : BresenhamLine.run (n + 1) s =
        ((s.x0, s.y0) :: (BresenhamLine.run n (BresenhamLine.next s).2).1,
          (BresenhamLine.run n (BresenhamLine.next s).2).2) := by
      conv_lhs => rw [BresenhamLine.run, hpair]
    rcases hcase with ⟨hx, hy, hcomp, _, _⟩ | ⟨hne, hcomp, hdec, hstep⟩
    · rw [hrun, run_complete hcomp]
      refine ⟨rfl, ?_, ?_, by simp [List.chain'_singleton], hcomp⟩
      · simp [hx, hy]
      · simp [hx, hy]
    · have hsl : stepsLeft (BresenhamLine.next s).2 ≤ n := by
        have h0 := hs.a_nonneg
        have h0b := hs.b_nonneg
        have h1a := hinv.a_nonneg
        have h1b := hinv.b_nonneg
        simp [stepsLeft, hc, hcomp] at hf ⊢
        omega
      obtain ⟨ihh, ihl, ihc, ihch, ihcomp⟩ := ih (BresenhamLine.next s).2 hinv hcomp hsl
      have hLne : (BresenhamLine.run n (BresenhamLine.next s).2).1 ≠ [] := by
        intro hnil; rw [hnil] at ihh; simp at ihh
      have hpne : (s.x0, s.y0) ≠ (s.x1, s.y1) := by
        simp only [ne_eq, Prod.mk.injEq]; exact hne
    
      rw [hrun]
      refine ⟨rfl, ?_, ?_, ?_, ihcomp⟩
      · rcases hL : (BresenhamLine.run n (BresenhamLine.next s).2).1 with _ | ⟨q, t⟩
        · exact absurd hL hLne
        · rw [hL] at ihl
          rw [List.getLast?_cons_cons, ihl, hx1, hy1]
      · rw [List.count_cons]
        rw [hx1, hy1] at ihc
        simp [ihc, hpne]
      · rw [List.chain'_cons']
        refine ⟨?_, ihch⟩
        intro q hq
        rw [ihh] at hq
        simp only [Option.mem_def, Option.some.injEq] at hq
        rw [← hq]
        exact hstep

theorem run_stable :
    ∀ (f : ℕ) (s : BState), BInv s → stepsLeft s ≤ f →
      ∀ g, f ≤ g → BresenhamLine.run g s = BresenhamLine.run f s := by
  intro f
  induction f with
  | zero =>
    intro s _ hf g _
    have hcomp : s.line_complete = true := by
      cases hB : s.line_complete
      · simp [stepsLeft, hB] at hf
      · rfl
    rw [run_complete hcomp, run_complete hcomp]
  | succ n ih =>
    intro s hs hf g hg
    cases hB : s.line_complete with
    | true => rw [run_complete hB, run_complete hB]
    | false =>
      obtain ⟨h1, hinv, _, _, hcase⟩ := next_spec hs hB
      have hpair : BresenhamLine.next s = (some (s.x0, s.y0), (BresenhamLine.next s).2) := by
        rw [← h1]
      obtain ⟨g2, rfl⟩ : ∃ g2, g = g2 + 1 := ⟨g - 1, by omega⟩
      have hsl : stepsLeft (BresenhamLine.next s).2 ≤ n := by
        rcases hcase with ⟨_, _, hcomp, _, _⟩ | ⟨_, hcomp, hdec, _⟩
        · simp [stepsLeft, hcomp]
        · have h1a := hinv.a_nonneg; have h1b := hinv.b_nonneg
          have h0 := hs.a_nonneg; have h0b := hs.b_nonneg
          simp [stepsLeft, hB, hcomp] at hf ⊢
          omega
      have heq := ih (BresenhamLine.next s).2 hinv hsl g2 (by omega)
      conv_lhs => rw [BresenhamLine.run, hpair]
      conv_rhs => rw [BresenhamLine.run, hpair]
      dsimp only
      rw [heq]

/-- C1: for every pair of integer endpoints, the walker's emission sequence
starts at the start point, ends at the end point, emits the end point
exactly once, and consecutive emissions differ by at most one in each axis
(no gaps). -/
theorem bresenham_walk_correct (x0 y0 x1 y1 : ℤ) :
    (BresenhamLine.points x0 y0 x1 y1).head? = some (x0, y0) ∧
    (BresenhamLine.points x0 y0 x1 y1).getLast? = some (x1, y1) ∧
    (BresenhamLine.points x0 y0 x1 y1).count (x1, y1) = 1 ∧
    List.Chain' stepClose (BresenhamLine.points x0 y0 x1 y1) := by
  have h := run_spec (stepsLeft (BresenhamLine.new x0 y0 x1 y1))
    (BresenhamLine.new x0 y0 x1 y1) (new_inv x0 y0 x1 y1) rfl le_rfl
  exact ⟨h.1, h.2.1, h.2.2.1, h.2.2.2.1⟩

/-- C6: the walker emits only finitely many points — with sufficient fuel
the emission list stabilizes at `points` and the completion flag is set —
and once the completion flag is set, every subsequent `next` call yields no
point and leaves the state unchanged. -/
theorem bresenham_terminates (x0 y0 x1 y1 : ℤ) (f : ℕ)
    (hf : stepsLeft (BresenhamLine.new x0 y0 x1 y1) ≤ f) :
    (BresenhamLine.run f (BresenhamLine.new x0 y0 x1 y1)).1 =
      BresenhamLine.points x0 y0 x1 y1 ∧
    (BresenhamLine.run f (BresenhamLine.new x0 y0 x1 y1)).2.line_complete = true ∧
    ∀ s : BState, s.line_complete = true → BresenhamLine.next s = (none, s) := by
  have hst := run_stable (stepsLeft (BresenhamLine.new x0 y0 x1 y1))
    (BresenhamLine.new x0 y0 x1 y1) (new_inv x0 y0 x1 y1) le_rfl f hf
  have h := run_spec (stepsLeft (BresenhamLine.new x0 y0 x1 y1))
    (BresenhamLine.new x0 y0 x1 y1) (new_inv x0 y0 x1 y1) rfl le_rfl
  refine ⟨?_, ?_, fun s hs => next_of_complete hs⟩
  · rw [hst]; rfl
  · rw [hst]; exact h.2.2.2.2

theorem run_horizontal :
    ∀ (f : ℕ) (s : BState), BInv s → s.line_complete = false → s.y0 = s.y1 →
      stepsLeft s ≤ f →
      ∀ q : ℤ × ℤ, q ∈ (BresenhamLine.run f s).1 ↔
        (q.2 = s.y0 ∧ min s.x0 s.x1 ≤ q.1 ∧ q.1 ≤ max s.x0 s.x1) := by
  intro f
  induction f with
  | zero => intro s _ hc _ hf; exfalso; simp [stepsLeft, hc] at hf
  | succ n ih =>
    intro s hs hc hy hf q
    by_cases hx : s.x0 = s.x1
    · have hnext := next_at_end hc hx hy
      have hrun : BresenhamLine.run (n + 1) s =
          ((s.x0, s.y0) :: (BresenhamLine.run n { s with line_complete := true }).1,
            (BresenhamLine.run n { s with line_complete := true }).2) := by
        conv_lhs => rw [BresenhamLine.run, hnext]
      rw [hrun, run_complete (s := { s with line_complete := true }) rfl]
      simp only [List.mem_singleton, Prod.ext_iff]
      constructor
      · rintro ⟨hq1, hq2⟩
        refine ⟨hq2, ?_, ?_⟩ <;> omega
      · rintro ⟨hq2, hlo, hhi⟩
        refine ⟨?_, hq2⟩
        omega
    · have ha : aRem s ≠ 0 := by rw [ne_eq, aRem_zero_iff hs]; exact hx
      have h3s := no_premature_y hs ((bRem_zero_iff hs).mpr hy) ha
      have h3 : ¬(2 * s.error < s.dx) := not_lt.mpr h3s
      have h2 : s.dy ≤ 2 * s.error := by
        have := hs.dx_nonneg; have := hs.dy_nonpos; linarith
      have hnext := next_step_x hc hx h2 h3
      obtain ⟨hinv, haT, hbT⟩ := stepx_facts hs hc hx rfl
      have hrun : BresenhamLine.run (n + 1) s =
          ((s.x0, s.y0) ::
            (BresenhamLine.run n
              { s with error := s.error + s.dy, x0 := s.x0 + s.sx }).1,
            (BresenhamLine.run n
              { s with error := s.error + s.dy, x0 := s.x0 + s.sx }).2) := by
        conv_lhs => rw [BresenhamLine.run, hnext]
      have ha1 : 1 ≤ aRem s := by
        have h0 := hs.a_nonneg; omega
      have hsl : stepsLeft { s with error := s.error + s.dy, x0 := s.x0 + s.sx } ≤ n := by
        have h1a := hinv.a_nonneg; have h1b := hinv.b_nonneg
        have h0 := hs.a_nonneg; have h0b := hs.b_nonneg
        simp only [haT, hbT] at h1a h1b
        simp only [stepsLeft] at hf ⊢
        rw [haT, hbT]
        simp [hc] at hf ⊢
        omega
      have hmem := ih { s with error := s.error + s.dy, x0 := s.x0 + s.sx } hinv hc hy hsl q
      rw [hrun, List.mem_cons, hmem]
      have hdir : (s.sx = 1 ∧ s.x0 < s.x1) ∨ (s.sx = -1 ∧ s.x1 < s.x0) := by
        have ha2 : 1 ≤ s.sx * (s.x1 - s.x0) := ha1
        rcases hs.sx_unit with hsx | hsx
        · left
          rw [hsx, one_mul] at ha2
          exact ⟨hsx, by omega⟩
        · right
          rw [hsx, neg_one_mul] at ha2
          exact ⟨hsx, by omega⟩
      show q = (s.x0, s.y0) ∨ q.2 = s.y0 ∧
          min (s.x0 + s.sx) s.x1 ≤ q.1 ∧ q.1 ≤ max (s.x0 + s.sx) s.x1 ↔ _
      rw [Prod.ext_iff]
      rcases hdir with ⟨hsx, hlt⟩ | ⟨hsx, hlt⟩ <;> rw [hsx] <;> constructor
      · rintro (⟨hq1, hq2⟩ | ⟨hq2, hlo, hhi⟩) <;> refine ⟨by assumption, ?_, ?_⟩ <;> omega
      · rintro ⟨hq2, hlo, hhi⟩
        by_cases hq0 : q.1 = s.x0
        · exact Or.inl ⟨hq0, hq2⟩
        · refine Or.inr ⟨hq2, ?_, ?_⟩ <;> omega
      · rintro (⟨hq1, hq2⟩ | ⟨hq2, hlo, hhi⟩) <;> refine ⟨by assumption, ?_, ?_⟩ <;> omega
      · rintro ⟨hq2, hlo, hhi⟩
        by_cases hq0 : q.1 = s.x0
        · exact Or.inl ⟨hq0, hq2⟩
        · refine Or.inr ⟨hq2, ?_, ?_⟩ <;> omega

theorem horiz_points_mem (x0 y x1 : ℤ) (q : ℤ × ℤ) :
    q ∈ BresenhamLine.points x0 y x1 y ↔
      q.2 = y ∧ min x0 x1 ≤ q.1 ∧ q.1 ≤ max x0 x1 :=
  run_horizontal (stepsLeft (BresenhamLine.new x0 y x1 y))
    (BresenhamLine.new x0 y x1 y) (new_inv x0 y x1 y) rfl rfl le_rfl q


/-- Witness for C6 at a concrete line and fuel. -/
theorem bresenham_terminates_witness :
    stepsLeft (BresenhamLine.new 0 0 2 1) ≤ 10 ∧
    ((BresenhamLine.run 10 (BresenhamLine.new 0 0 2 1)).1 =
        BresenhamLine.points 0 0 2 1 ∧
      (BresenhamLine.run 10 (BresenhamLine.new 0 0 2 1)).2.line_complete = true ∧
      ∀ s : BState, s.line_complete = true → BresenhamLine.next s = (none, s)) :=
  ⟨by decide, bresenham_terminates 0 0 2 1 10 (by decide)⟩

/-! ## Renderer write characterization -/

theorem put_pixel_fields (rd : Renderer) (x y : ℚ) (c : Color) :
    (rd.put_pixel x y c).width = rd.width ∧ (rd.put_pixel x y c).height = rd.height ∧
    (rd.put_pixel x y c).pixel_width = rd.pixel_width ∧
    (rd.put_pixel x y c).pixel_height = rd.pixel_height := by
  simp only [Renderer.put_pixel]
  split_ifs <;> exact ⟨rfl, rfl, rfl, rfl⟩

theorem put_pixel_nat (rd : Renderer) (w h : ℕ) (hw : rd.width = w) (hh : rd.height = h)
    (x y : ℕ) (c : Color) (hx : x < w) (hy0 : 0 < y) (hy : y ≤ h) :
    rd.put_pixel x y c =
      { rd with buffer := Function.update rd.buffer (cellIdx w h x y) (blendWord c (rd.buffer (cellIdx w h x y))) } := by
  unfold Renderer.put_pixel
  rw [hw, hh]
  rw [if_pos]
  · have hsub : ((h : ℚ) - (y : ℚ)) = ((h - y : ℕ) : ℚ) := by
      rw [Nat.cast_sub hy]
    have h1 : f32ToUsize ((h : ℚ) - (y : ℚ)) = h - y := by
      rw [hsub]; simp [f32ToUsize, Int.floor_natCast]
    have h2 : f32ToUsize ((w : ℕ) : ℚ) = w := by
      simp [f32ToUsize, Int.floor_natCast]
    have h3 : f32ToUsize ((x : ℕ) : ℚ) = x := by
      simp [f32ToUsize, Int.floor_natCast]
    rw [h1, h2, h3]
    rfl
  · refine ⟨Nat.cast_nonneg x, ?_, ?_, ?_⟩
    · exact_mod_cast hx
    · rw [sub_nonneg]; exact_mod_cast hy
    · rw [sub_lt_self_iff]; exact_mod_cast hy0

theorem put_pixel_zero_row (rd : Renderer) (x : ℚ) (c : Color) :
    rd.put_pixel x 0 c = rd := by
  simp [Renderer.put_pixel]

theorem putPixels_fields (c : Color) :
    ∀ (ps : List (ℕ × ℕ)) (rd : Renderer),
      (putPixels rd ps c).width = rd.width ∧ (putPixels rd ps c).height = rd.height ∧
      (putPixels rd ps c).pixel_width = rd.pixel_width ∧
      (putPixels rd ps c).pixel_height = rd.pixel_height := by
  intro ps
  induction ps with
  | nil => intro rd; exact ⟨rfl, rfl, rfl, rfl⟩
  | cons p t ih =>
    intro rd
    have h1 := put_pixel_fields rd p.1 p.2 c
    have h2 := ih (rd.put_pixel p.1 p.2 c)
    simp only [putPixels, List.foldl_cons] at *
    exact ⟨h2.1.trans h1.1, h2.2.1.trans h1.2.1, h2.2.2.1.trans h1.2.2.1,
      h2.2.2.2.trans h1.2.2.2⟩

theorem putPixels_spec (c : Color) :
    ∀ (ps : List (ℕ × ℕ)) (rd : Renderer) (w h : ℕ), rd.width = w → rd.height = h →
      (∀ p ∈ ps, p.1 < w ∧ 0 < p.2 ∧ p.2 ≤ h) →
      (ps.map fun p => cellIdx w h p.1 p.2).Nodup →
      (∀ p ∈ ps, (putPixels rd ps c).buffer (cellIdx w h p.1 p.2) =
          blendWord c (rd.buffer (cellIdx w h p.1 p.2))) ∧
      (∀ i, i ∉ ps.map (fun p => cellIdx w h p.1 p.2) →
          (putPixels rd ps c).buffer i = rd.buffer i) := by
  intro ps
  induction ps with
  | nil => intro rd w h _ _ _ _; exact ⟨fun p hp => absurd hp (List.not_mem_nil p), fun i _ => rfl⟩
  | cons p t ih =>
    intro rd w h hw hh hbounds hnd
    have hpB := hbounds p (List.mem_cons_self p t)
    have hstep := put_pixel_nat rd w h hw hh p.1 p.2 c hpB.1 hpB.2.1 hpB.2.2
    simp only [List.map_cons, List.nodup_cons] at hnd
    have hrd1 : (rd.put_pixel p.1 p.2 c).width = w := ((put_pixel_fields rd p.1 p.2 c).1).trans hw
    have hrd1h : (rd.put_pixel p.1 p.2 c).height = h := ((put_pixel_fields rd p.1 p.2 c).2.1).trans hh
    have hIH := ih (rd.put_pixel p.1 p.2 c) w h hrd1 hrd1h
      (fun q hq => hbounds q (List.mem_cons_of_mem p hq)) hnd.2
    have hfold : putPixels rd (p :: t) c = putPixels (rd.put_pixel p.1 p.2 c) t c := rfl
    constructor
    · intro q hq
      rcases List.mem_cons.mp hq with rfl | hqt
      · rw [hfold]
        rw [hIH.2 (cellIdx w h q.1 q.2) hnd.1]
        rw [hstep]
        simp
      · rw [hfold, hIH.1 q hqt]
        have hne : cellIdx w h q.1 q.2 ≠ cellIdx w h p.1 p.2 := by
          intro he
          exact hnd.1 (he ▸ List.mem_map_of_mem (fun r => cellIdx w h r.1 r.2) hqt)
        rw [hstep]
        simp [Function.update_noteq hne]
    · intro i hi
      simp only [List.map_cons, List.mem_cons, not_or] at hi
      rw [hfold, hIH.2 i hi.2, hstep]
      simp [Function.update_noteq hi.1]

theorem clamp_of_mem (v hi : ℚ) (h0 : 0 ≤ v) (h1 : v ≤ hi) : clamp 0 v hi = v := by
  unfold clamp
  rw [if_neg (by linarith), if_neg (by linarith)]

theorem putPixels_append (c : Color) (l1 l2 : List (ℕ × ℕ)) (rd : Renderer) :
    putPixels rd (l1 ++ l2) c = putPixels (putPixels rd l1 c) l2 c := by
  simp [putPixels, List.foldl_append]

theorem draw_inner_eq (c : Color) :
    ∀ (n : ℕ) (acc : Renderer) (w h xb yb : ℕ), acc.width = w → acc.height = h →
      xb + n ≤ w → yb ≤ h →
      (List.range n).foldl (fun acc2 (px2 : ℕ) =>
          acc2.put_pixel (clamp 0 ((xb : ℚ) + (px2 : ℚ)) acc2.width)
            (clamp 0 ((yb : ℚ)) acc2.height) c) acc =
        putPixels acc ((List.range n).map fun px2 => (xb + px2, yb)) c := by
  intro n
  induction n with
  | zero => intro acc w h xb yb _ _ _ _; rfl
  | succ m ih =>
    intro acc w h xb yb hw hh hxw hyh
    rw [List.range_succ, List.foldl_append, List.foldl_cons, List.foldl_nil,
      List.map_append, putPixels_append]
    rw [ih acc w h xb yb hw hh (by omega) hyh]
    simp only [List.map_cons, List.map_nil]
    have hfw := (putPixels_fields c ((List.range m).map fun px2 => (xb + px2, yb)) acc).1
    have hfh := (putPixels_fields c ((List.range m).map fun px2 => (xb + px2, yb)) acc).2.1
    rw [show putPixels (putPixels acc ((List.range m).map fun px2 => (xb + px2, yb)) c)
        [(xb + m, yb)] c =
      (putPixels acc ((List.range m).map fun px2 => (xb + px2, yb)) c).put_pixel
        ((xb + m : ℕ) : ℚ) ((yb : ℕ) : ℚ) c from rfl]
    rw [hfw, hfh, hw, hh]
    rw [clamp_of_mem ((xb : ℚ) + (m : ℚ)) (w : ℚ) (by positivity)
      (by have hc2 : ((xb + (m + 1) : ℕ) : ℚ) ≤ ((w : ℕ) : ℚ) := by exact_mod_cast hxw
          push_cast at hc2
          linarith)]
    rw [clamp_of_mem ((yb : ℚ)) (h : ℚ) (by positivity) (by exact_mod_cast hyh)]
    rw [show (xb : ℚ) + (m : ℚ) = ((xb + m : ℕ) : ℚ) from by push_cast; ring]

theorem draw_outer_eq (c : Color) :
    ∀ (m : ℕ) (acc : Renderer) (w h pw xb yb : ℕ), acc.width = w → acc.height = h →
      xb + pw ≤ w → yb + m ≤ h →
      (List.range m).foldl (fun acc1 (py : ℕ) =>
          (List.range pw).foldl (fun acc2 (px2 : ℕ) =>
            acc2.put_pixel (clamp 0 ((xb : ℚ) + (px2 : ℚ)) acc2.width)
              (clamp 0 ((yb : ℚ) + (py : ℚ)) acc2.height) c) acc1) acc =
        putPixels acc ((List.range m).flatMap fun py =>
          (List.range pw).map fun px2 => (xb + px2, yb + py)) c := by
  intro m
  induction m with
  | zero => intro acc w h pw xb yb _ _ _ _; rfl
  | succ k ih =>
    intro acc w h pw xb yb hw hh hxw hyh
    rw [List.range_succ, List.foldl_append, List.foldl_cons, List.foldl_nil]
    rw [ih acc w h pw xb yb hw hh hxw (by omega)]
    rw [List.flatMap_append, putPixels_append]
    simp only [List.flatMap_cons, List.flatMap_nil, List.append_nil]
    have hfw := (putPixels_fields c ((List.range k).flatMap fun py =>
      (List.range pw).map fun px2 => (xb + px2, yb + py)) acc).1
    have hfh := (putPixels_fields c ((List.range k).flatMap fun py =>
      (List.range pw).map fun px2 => (xb + px2, yb + py)) acc).2.1
    have hinner := draw_inner_eq c pw
      (putPixels acc ((List.range k).flatMap fun py =>
        (List.range pw).map fun px2 => (xb + px2, yb + py)) c)
      w h xb (yb + k) (by rw [hfw, hw]) (by rw [hfh, hh]) hxw (by omega)
    rw [show ((yb : ℕ) : ℚ) + ((k : ℕ) : ℚ) = (((yb + k : ℕ)) : ℚ) from by push_cast; ring]
    exact hinner

theorem cellIdx_inj (w h x1 y1 x2 y2 : ℕ) (hw : 0 < w) (hx1 : x1 < w) (hx2 : x2 < w)
    (hy1 : y1 ≤ h) (hy2 : y2 ≤ h)
    (he : cellIdx w h x1 y1 = cellIdx w h x2 y2) : x1 = x2 ∧ y1 = y2 := by
  unfold cellIdx at he
  have hmod : x1 = x2 := by
    have h1 : ((h - y1) * w + x1) % w = x1 := by
      rw [Nat.add_comm, Nat.add_mul_mod_self_right]
      exact Nat.mod_eq_of_lt hx1
    have h2 : ((h - y2) * w + x2) % w = x2 := by
      rw [Nat.add_comm, Nat.add_mul_mod_self_right]
      exact Nat.mod_eq_of_lt hx2
    rw [← h1, ← h2, he]
  refine ⟨hmod, ?_⟩
  subst hmod
  have hrow : (h - y1) * w = (h - y2) * w := by omega
  have hsub : h - y1 = h - y2 := Nat.eq_of_mul_eq_mul_right hw hrow
  omega

/-- C7: on a renderer with `pixel_width = pixel_height = 4` and a buffer at
least `8 × 8`, `draw(1, 1, c)` stores a blend into exactly the sixteen
buffer cells addressed by physical coordinates `[4,8) × [4,8)` (cell of
physical `(px, py)` is storage row `h - py`, column `px`), and leaves every
other buffer cell unchanged. -/
theorem draw_virtual_pixel_block (w h : ℕ) (hw : 8 ≤ w) (hh : 8 ≤ h)
    (c : Color) (buf : ℕ → ℕ) :
    (∀ px2 py : ℕ, 4 ≤ px2 → px2 < 8 → 4 ≤ py → py < 8 →
        ((mkRenderer w h 4 4 buf).draw 1 1 c).buffer (cellIdx w h px2 py) =
          blendWord c (buf (cellIdx w h px2 py))) ∧
    (∀ i : ℕ, (∀ px2 py : ℕ, 4 ≤ px2 → px2 < 8 → 4 ≤ py → py < 8 →
        i ≠ cellIdx w h px2 py) →
      ((mkRenderer w h 4 4 buf).draw 1 1 c).buffer i = buf i) := by
  have hdraw : (mkRenderer w h 4 4 buf).draw 1 1 c =
      putPixels (mkRenderer w h 4 4 buf)
        ((List.range 4).flatMap fun py =>
          (List.range 4).map fun px2 => (4 + px2, 4 + py)) c := by
    simp only [Renderer.draw, mkRenderer]
    rw [show (1 : ℚ) * ((4 : ℕ) : ℚ) = ((4 : ℕ) : ℚ) from by norm_num]
    exact draw_outer_eq c 4 _ w h 4 4 4 rfl rfl (by omega) (by omega)
  have hmemiff : ∀ p : ℕ × ℕ,
      p ∈ ((List.range 4).flatMap fun py =>
        (List.range 4).map fun px2 => (4 + px2, 4 + py)) ↔
      (4 ≤ p.1 ∧ p.1 < 8 ∧ 4 ≤ p.2 ∧ p.2 < 8) := by
    intro p
    simp only [List.mem_flatMap, List.mem_map, List.mem_range]
    constructor
    · rintro ⟨py, hpy, px2, hpx, rfl⟩
      omega
    · rintro ⟨h1, h2, h3, h4⟩
      refine ⟨p.2 - 4, by omega, p.1 - 4, by omega, ?_⟩
      obtain ⟨a, b⟩ := p
      simp only [Prod.mk.injEq]
      omega
  have hbounds : ∀ p ∈ ((List.range 4).flatMap fun py =>
      (List.range 4).map fun px2 => (4 + px2, 4 + py)),
      p.1 < w ∧ 0 < p.2 ∧ p.2 ≤ h := by
    intro p hp
    have := (hmemiff p).mp hp
    omega
  have hnd : (((List.range 4).flatMap fun py =>
      (List.range 4).map fun px2 => (4 + px2, 4 + py)).map
        fun p => cellIdx w h p.1 p.2).Nodup := by
    refine List.Nodup.map_on ?_ (by decide)
    intro p hp q hq he
    have hpb := (hmemiff p).mp hp
    have hqb := (hmemiff q).mp hq
    have := cellIdx_inj w h p.1 p.2 q.1 q.2 (by omega) (by omega) (by omega)
      (by omega) (by omega) he
    exact Prod.ext this.1 this.2
  have hspec := putPixels_spec c ((List.range 4).flatMap fun py =>
      (List.range 4).map fun px2 => (4 + px2, 4 + py))
    (mkRenderer w h 4 4 buf) w h rfl rfl hbounds hnd
  constructor
  · intro px2 py h1 h2 h3 h4
    rw [hdraw]
    exact hspec.1 (px2, py) ((hmemiff (px2, py)).mpr ⟨h1, h2, h3, h4⟩)
  · intro i hi
    rw [hdraw]
    refine hspec.2 i ?_
    intro hmem
    obtain ⟨p, hp, hpe⟩ := List.mem_map.mp hmem
    have hpb := (hmemiff p).mp hp
    exact hi p.1 p.2 hpb.1 hpb.2.1 hpb.2.2.1 hpb.2.2.2 hpe.symm

/-- Witness for C7 at a concrete size, color and buffer. -/
theorem draw_virtual_pixel_block_witness :
    (8 : ℕ) ≤ 8 ∧
    (∀ px2 py : ℕ, 4 ≤ px2 → px2 < 8 → 4 ≤ py → py < 8 →
        ((mkRenderer 8 8 4 4 fun _ => 0).draw 1 1 css.WHITE).buffer
            (cellIdx 8 8 px2 py) =
          blendWord css.WHITE ((fun _ => (0 : ℕ)) (cellIdx 8 8 px2 py))) :=
  ⟨le_refl 8,
   (draw_virtual_pixel_block 8 8 (le_refl 8) (le_refl 8) css.WHITE fun _ => 0).1⟩

theorem putPixels_cons (rd : Renderer) (p : ℕ × ℕ) (t : List (ℕ × ℕ)) (c : Color) :
    putPixels rd (p :: t) c =
      putPixels (rd.put_pixel (p.1 : ℚ) (p.2 : ℚ) c) t c := rfl

theorem draw_one_eq (rd : Renderer) (c : Color) (x y : ℚ) (w h : ℕ)
    (hw : rd.width = w) (hh : rd.height = h)
    (hpw : rd.pixel_width = 1) (hph : rd.pixel_height = 1)
    (hx0 : 0 ≤ x) (hxw : x + 1 ≤ w) (hy0 : 0 ≤ y) (hyh : y + 1 ≤ h) :
    rd.draw x y c = rd.put_pixel x y c := by
  simp only [Renderer.draw, hpw, hph]
  rw [show List.range 1 = [0] from rfl]
  simp only [List.foldl_cons, List.foldl_nil]
  rw [hw, hh]
  rw [show x * ((1 : ℕ) : ℚ) + ((0 : ℕ) : ℚ) = x from by push_cast; ring,
      show y * ((1 : ℕ) : ℚ) + ((0 : ℕ) : ℚ) = y from by push_cast; ring]
  rw [clamp_of_mem x w hx0 (by linarith), clamp_of_mem y h hy0 (by linarith)]

theorem drawSeq_eq_putPixels (c : Color) :
    ∀ (ps : List (ℤ × ℤ)) (rd : Renderer) (w h : ℕ), rd.width = w → rd.height = h →
      rd.pixel_width = 1 → rd.pixel_height = 1 →
      (∀ p ∈ ps, 0 ≤ p.1 ∧ p.1 + 1 ≤ w ∧ 0 ≤ p.2 ∧ p.2 + 1 ≤ h) →
      ps.foldl (fun acc p => acc.draw (p.1 : ℚ) (p.2 : ℚ) c) rd =
        putPixels rd (ps.map fun p => (p.1.toNat, p.2.toNat)) c := by
  intro ps
  induction ps with
  | nil => intro rd w h _ _ _ _ _; rfl
  | cons p t ih =>
    intro rd w h hw hh hpw hph hb
    have hpB := hb p (List.mem_cons_self p t)
    have hdraw : rd.draw (p.1 : ℚ) (p.2 : ℚ) c = rd.put_pixel (p.1 : ℚ) (p.2 : ℚ) c := by
      refine draw_one_eq rd c _ _ w h hw hh hpw hph ?_ ?_ ?_ ?_
      · exact_mod_cast hpB.1
      · have : ((p.1 + 1 : ℤ) : ℚ) ≤ ((w : ℤ) : ℚ) := by exact_mod_cast hpB.2.1
        push_cast at this; linarith
      · exact_mod_cast hpB.2.2.1
      · have : ((p.2 + 1 : ℤ) : ℚ) ≤ ((h : ℤ) : ℚ) := by exact_mod_cast hpB.2.2.2
        push_cast at this; linarith
    have hcastx : ((p.1.toNat : ℕ) : ℚ) = ((p.1 : ℤ) : ℚ) := by
      rw [← Int.cast_natCast, Int.toNat_of_nonneg hpB.1]
    have hcasty : ((p.2.toNat : ℕ) : ℚ) = ((p.2 : ℤ) : ℚ) := by
      rw [← Int.cast_natCast, Int.toNat_of_nonneg hpB.2.2.1]
    have hfields := put_pixel_fields rd (p.1 : ℚ) (p.2 : ℚ) c
    simp only [List.foldl_cons, List.map_cons]
    rw [hdraw]
    have hIH := ih (rd.put_pixel (p.1 : ℚ) (p.2 : ℚ) c) w h
      (hfields.1.trans hw) (hfields.2.1.trans hh) (hfields.2.2.1.trans hpw)
      (hfields.2.2.2.trans hph) (fun q hq => hb q (List.mem_cons_of_mem p hq))
    rw [hIH]
    rw [show putPixels rd ((p.1.toNat, p.2.toNat) ::
        t.map fun q => (q.1.toNat, q.2.toNat)) c =
      putPixels (rd.put_pixel ((p.1.toNat : ℕ) : ℚ) ((p.2.toNat : ℕ) : ℚ) c)
        (t.map fun q => (q.1.toNat, q.2.toNat)) c from rfl]
    rw [hcastx, hcasty]

theorem line_cast_zero (mW : ℚ) (hmW : 0 ≤ mW) :
    f32ToU32 (clamp 0 ((⌊(0 : ℚ)⌋ : ℤ) : ℚ) mW + 1 / 2) = 0 := by
  rw [Int.floor_zero, show (((0 : ℤ) : ℚ)) = (0 : ℚ) from by norm_num,
    clamp_of_mem 0 mW le_rfl hmW]
  norm_num [f32ToU32]

theorem line_cast_four (mW : ℚ) (hmW : 4 ≤ mW) :
    f32ToU32 (clamp 0 ((⌊(4 : ℚ)⌋ : ℤ) : ℚ) mW + 1 / 2) = 4 := by
  rw [show ⌊(4 : ℚ)⌋ = (4 : ℤ) from by norm_num,
    show (((4 : ℤ) : ℚ)) = (4 : ℚ) from by norm_num,
    clamp_of_mem 4 mW (by norm_num) hmW]
  norm_num [f32ToU32]

/-- Blending opaque white over packed opaque black yields packed opaque
white. -/
theorem blend_white_over_black :
    blendWord css.WHITE (colorToU32 css.BLACK) = colorToU32 css.WHITE := by decide

/-- C2 (amended): after `clear(BLACK)` on a `w × h` renderer with unit
virtual pixels (`w, h > 4`), `draw_line(0,0,4,4,WHITE)` sets exactly the
four buffer cells of logical pixels `(1,1), (2,2), (3,3), (4,4)` to white
and leaves every other cell black; the Bresenham point `(0,0)` is dropped
by the `put_pixel` y-inversion bounds check. -/
theorem draw_line_diagonal_pixels (w h : ℕ) (hw : 4 < w) (hh : 4 < h) (buf : ℕ → ℕ) :
    (∀ k : ℕ, 1 ≤ k → k ≤ 4 →
        ((Renderer.clear (mkRenderer w h 1 1 buf) css.BLACK).draw_line 0 0 4 4
          css.WHITE).buffer (cellIdx w h k k) = colorToU32 css.WHITE) ∧
    (∀ i : ℕ, (∀ k : ℕ, 1 ≤ k → k ≤ 4 → i ≠ cellIdx w h k k) →
        ((Renderer.clear (mkRenderer w h 1 1 buf) css.BLACK).draw_line 0 0 4 4
          css.WHITE).buffer i = colorToU32 css.BLACK) := by
  have hr0 : Renderer.clear (mkRenderer w h 1 1 buf) css.BLACK =
      mkRenderer w h 1 1 (fun _ => colorToU32 css.BLACK) := rfl
  rw [hr0]
  have hpoints : BresenhamLine.points 0 0 4 4 =
      [(0, 0), (1, 1), (2, 2), (3, 3), (4, 4)] := by decide
  have hline : (mkRenderer w h 1 1 fun _ => colorToU32 css.BLACK).draw_line 0 0 4 4
      css.WHITE =
      putPixels (mkRenderer w h 1 1 fun _ => colorToU32 css.BLACK)
        [(0, 0), (1, 1), (2, 2), (3, 3), (4, 4)] css.WHITE := by
    simp only [Renderer.draw_line, mkRenderer]
    rw [line_cast_zero (w : ℚ) (by positivity), line_cast_zero (h : ℚ) (by positivity),
      line_cast_four (w : ℚ) (by exact_mod_cast hw.le),
      line_cast_four (h : ℚ) (by exact_mod_cast hh.le)]
    rw [hpoints]
    rw [drawSeq_eq_putPixels css.WHITE [(0, 0), (1, 1), (2, 2), (3, 3), (4, 4)]
      _ w h rfl rfl rfl rfl ?_]
    · rfl
    · intro p hp
      fin_cases hp <;> refine ⟨by norm_num, ?_, by norm_num, ?_⟩ <;> simp <;> omega
  rw [hline]
  have hnoop : putPixels (mkRenderer w h 1 1 fun _ => colorToU32 css.BLACK)
      [(0, 0), (1, 1), (2, 2), (3, 3), (4, 4)] css.WHITE =
      putPixels (mkRenderer w h 1 1 fun _ => colorToU32 css.BLACK)
        [(1, 1), (2, 2), (3, 3), (4, 4)] css.WHITE := by
    rw [putPixels_cons]
    dsimp only
    rw [Nat.cast_zero, put_pixel_zero_row]
  rw [hnoop]
  have hmem4 : ∀ p : ℕ × ℕ, p ∈ [((1 : ℕ), (1 : ℕ)), (2, 2), (3, 3), (4, 4)] ↔
      (1 ≤ p.1 ∧ p.1 ≤ 4 ∧ p.1 = p.2) := by
    intro p
    obtain ⟨a, b⟩ := p
    simp only [List.mem_cons, List.not_mem_nil, or_false, Prod.mk.injEq]
    omega
  have hbounds : ∀ p ∈ [((1 : ℕ), (1 : ℕ)), (2, 2), (3, 3), (4, 4)],
      p.1 < w ∧ 0 < p.2 ∧ p.2 ≤ h := by
    intro p hp
    have := (hmem4 p).mp hp
    omega
  have hnd : (([((1 : ℕ), (1 : ℕ)), (2, 2), (3, 3), (4, 4)]).map
      fun p => cellIdx w h p.1 p.2).Nodup := by
    refine List.Nodup.map_on ?_ (by decide)
    intro p hp q hq he
    have hpb := (hmem4 p).mp hp
    have hqb := (hmem4 q).mp hq
    have := cellIdx_inj w h p.1 p.2 q.1 q.2 (by omega) (by omega) (by omega)
      (by omega) (by omega) he
    exact Prod.ext this.1 this.2
  have hspec := putPixels_spec css.WHITE [((1 : ℕ), (1 : ℕ)), (2, 2), (3, 3), (4, 4)]
    (mkRenderer w h 1 1 fun _ => colorToU32 css.BLACK) w h rfl rfl hbounds hnd
  constructor
  · intro k h1 h4
    have hk := hspec.1 (k, k) ((hmem4 (k, k)).mpr ⟨h1, h4, rfl⟩)
    rw [hk]
    exact blend_white_over_black
  · intro i hi
    refine (hspec.2 i ?_).trans rfl
    intro hmem
    obtain ⟨p, hp, hpe⟩ := List.mem_map.mp hmem
    have hpb := (hmem4 p).mp hp
    exact hi p.1 (by omega) (by omega) (by rw [← hpe, hpb.2.2])

theorem countP_pointwise :
    ∀ (l : List ℕ) (p q : ℕ → Bool), (∀ a ∈ l, p a = q a) →
      l.countP p = l.countP q := by
  intro l p q h
  induction l with
  | nil => rfl
  | cons a t ih =>
    rw [List.countP_cons, List.countP_cons, h a (List.mem_cons_self a t),
      ih fun b hb => h b (List.mem_cons_of_mem a hb)]

/-- C2 counterexample (claim as stated is false): on a cleared 10 × 10
renderer, `draw_line(0,0,4,4,WHITE)` turns exactly four buffer cells
white, not five — logical `(0,0)` is never written. -/
theorem draw_line_five_pixel_counterexample :
    ((List.range 100).countP fun i =>
      decide (((Renderer.clear (mkRenderer 10 10 1 1 fun _ => 0) css.BLACK).draw_line
        0 0 4 4 css.WHITE).buffer i = colorToU32 css.WHITE)) = 4 := by
  have hmain := draw_line_diagonal_pixels 10 10 (by norm_num) (by norm_num) fun _ => 0
  have hne : colorToU32 css.BLACK ≠ colorToU32 css.WHITE := by decide
  have hi1 : cellIdx 10 10 1 1 = 91 := by decide
  have hi2 : cellIdx 10 10 2 2 = 82 := by decide
  have hi3 : cellIdx 10 10 3 3 = 73 := by decide
  have hi4 : cellIdx 10 10 4 4 = 64 := by decide
  rw [countP_pointwise (List.range 100) _
    (fun i => decide (i = 91 ∨ i = 82 ∨ i = 73 ∨ i = 64)) ?_]
  · decide
  · intro i _
    by_cases hmem : i = 91 ∨ i = 82 ∨ i = 73 ∨ i = 64
    · rcases hmem with rfl | rfl | rfl | rfl
      · rw [← hi1, hmain.1 1 (by norm_num) (by norm_num)]
        simp
      · rw [← hi2, hmain.1 2 (by norm_num) (by norm_num)]
        simp
      · rw [← hi3, hmain.1 3 (by norm_num) (by norm_num)]
        simp
      · rw [← hi4, hmain.1 4 (by norm_num) (by norm_num)]
        simp
    · push_neg at hmem
      have hb := hmain.2 i (by
        intro k h1 h4
        interval_cases k
        · rw [hi1]; exact hmem.1
        · rw [hi2]; exact hmem.2.1
        · rw [hi3]; exact hmem.2.2.1
        · rw [hi4]; exact hmem.2.2.2)
      rw [hb]
      simp [hne, hmem.1, hmem.2.1, hmem.2.2.1, hmem.2.2.2]

/-- Witness for the amended C2 at a concrete size and buffer. -/
theorem draw_line_diagonal_pixels_witness :
    (4 : ℕ) < 10 ∧
    (∀ k : ℕ, 1 ≤ k → k ≤ 4 →
        ((Renderer.clear (mkRenderer 10 10 1 1 fun _ => 7) css.BLACK).draw_line 0 0 4 4
          css.WHITE).buffer (cellIdx 10 10 k k) = colorToU32 css.WHITE) :=
  ⟨by norm_num,
   (draw_line_diagonal_pixels 10 10 (by norm_num) (by norm_num) fun _ => 7).1⟩

/-! ## Filled-triangle termination -/

theorem advanceTracker_spec :
    ∀ (f : ℕ) (w : BState) (cur : ℤ × ℤ), BInv w → stepsLeft w + 1 ≤ f →
      (w.line_complete = true → w.y1 ≤ cur.2) →
      ∃ w2 cur2, advanceTracker f w cur = some (w2, cur2) ∧ BInv w2 ∧
        w2.y1 = w.y1 ∧
        (stepsLeft w2 < stepsLeft w ∨ (w.line_complete = true ∧ w2 = w ∧ cur2 = cur)) ∧
        (w2.line_complete = true → w2.y1 ≤ cur2.2) := by
  intro f
  induction f with
  | zero => intro w cur _ hf _; omega
  | succ n ih =>
    intro w cur hs hf hcur
    cases hB : w.line_complete with
    | true =>
      refine ⟨w, cur, ?_, hs, rfl, Or.inr ⟨rfl, rfl, rfl⟩, fun _ => hcur hB⟩
      simp only [advanceTracker, next_of_complete hB]
    | false =>
      obtain ⟨h1, hinv, hx1, hy1, hcase⟩ := next_spec hs hB
      have hpair : BresenhamLine.next w = (some (w.x0, w.y0), (BresenhamLine.next w).2) := by
        rw [← h1]
      have hsw : 1 ≤ stepsLeft w := by simp [stepsLeft, hB]
      have hadv : advanceTracker (n + 1) w cur =
          if cur.2 < w.y0 then some ((BresenhamLine.next w).2, (w.x0, w.y0))
          else advanceTracker n (BresenhamLine.next w).2 cur := by
        simp only [advanceTracker]
        rw [hpair]
      rcases hcase with ⟨hx, hy, hcomp, hx0, hy0⟩ | ⟨hne, hcomp, hdec, hstep⟩
      · have hslz : stepsLeft (BresenhamLine.next w).2 = 0 := by
          simp [stepsLeft, hcomp]
        by_cases hlt : cur.2 < w.y0
        · refine ⟨(BresenhamLine.next w).2, (w.x0, w.y0), ?_, hinv, hy1, ?_, ?_⟩
          · rw [hadv, if_pos hlt]
          · left; omega
          · intro _
            rw [hy1, ← hy]
        · have hpre : (BresenhamLine.next w).2.line_complete = true →
              (BresenhamLine.next w).2.y1 ≤ cur.2 := by
            intro _
            rw [hy1, ← hy]
            omega
          obtain ⟨w2, cur2, heq, hi2, hy2, hd2, hl2⟩ :=
            ih (BresenhamLine.next w).2 cur hinv (by omega) hpre
          refine ⟨w2, cur2, ?_, hi2, hy2.trans hy1, ?_, hl2⟩
          · rw [hadv, if_neg hlt, heq]
          · left
            rcases hd2 with hlt2 | ⟨_, rfl, _⟩ <;> omega
      · have hsl2 : stepsLeft (BresenhamLine.next w).2 < stepsLeft w := by
          have h0 := hs.a_nonneg
          have h0b := hs.b_nonneg
          have h1a := hinv.a_nonneg
          have h1b := hinv.b_nonneg
          simp [stepsLeft, hB, hcomp]
          omega
        by_cases hlt : cur.2 < w.y0
        · refine ⟨(BresenhamLine.next w).2, (w.x0, w.y0), ?_, hinv, hy1, Or.inl hsl2, ?_⟩
          · rw [hadv, if_pos hlt]
          · intro hcc
            rw [hcomp] at hcc
            cases hcc
        · have hpre : (BresenhamLine.next w).2.line_complete = true →
              (BresenhamLine.next w).2.y1 ≤ cur.2 := by
            intro hcc
            rw [hcomp] at hcc
            cases hcc
          obtain ⟨w2, cur2, heq, hi2, hy2, hd2, hl2⟩ :=
            ih (BresenhamLine.next w).2 cur hinv (by omega) hpre
          refine ⟨w2, cur2, ?_, hi2, hy2.trans hy1, ?_, hl2⟩
          · rw [hadv, if_neg hlt, heq]
          · left
            rcases hd2 with hlt2 | ⟨hcc, rfl, _⟩
            · omega
            · rw [hcomp] at hcc
              cases hcc

theorem fillHalfLoop_terminates :
    ∀ (f : ℕ) (wl wr : BState) (curL curR : ℤ × ℤ) (tL tR : ℤ),
      BInv wl → BInv wr → tL = wl.y1 → tR = wr.y1 →
      (wl.line_complete = true → tL ≤ curL.2) →
      (wr.line_complete = true → tR ≤ curR.2) →
      stepsLeft wl + stepsLeft wr < f →
      (fillHalfLoop f wl wr curL curR tL tR).isSome := by
  intro f
  induction f with
  | zero => intro wl wr curL curR tL tR _ _ _ _ _ _ hf; omega
  | succ n ih =>
    intro wl wr curL curR tL tR hl hr htl htr hcl hcr hf
    by_cases hguard : curL.2 < tL ∧ curR.2 < tR
    · have hlB : wl.line_complete = false := by
        cases hB : wl.line_complete
        · rfl
        · exact absurd (hcl hB) (by omega)
      have hrB : wr.line_complete = false := by
        cases hB : wr.line_complete
        · rfl
        · exact absurd (hcr hB) (by omega)
      obtain ⟨wl2, curL2, heqL, hiL, hyL, hdL, hlastL⟩ :=
        advanceTracker_spec (stepsLeft wl + 1) wl curL hl le_rfl
          (fun hcc => by rw [hlB] at hcc; cases hcc)
      obtain ⟨wr2, curR2, heqR, hiR, hyR, hdR, hlastR⟩ :=
        advanceTracker_spec (stepsLeft wr + 1) wr curR hr le_rfl
          (fun hcc => by rw [hrB] at hcc; cases hcc)
      have hdL2 : stepsLeft wl2 < stepsLeft wl := by
        rcases hdL with h | ⟨hcc, _, _⟩
        · exact h
        · rw [hlB] at hcc; cases hcc
      have hdR2 : stepsLeft wr2 < stepsLeft wr := by
        rcases hdR with h | ⟨hcc, _, _⟩
        · exact h
        · rw [hrB] at hcc; cases hcc
      have hrec := ih wl2 wr2 curL2 curR2 tL tR hiL hiR (htl.trans hyL.symm)
        (htr.trans hyR.symm) (fun hcc => (htl.trans hyL.symm) ▸ hlastL hcc)
        (fun hcc => (htr.trans hyR.symm) ▸ hlastR hcc) (by omega)
      simp only [fillHalfLoop, hguard, if_true, heqL, heqR]
      exact hrec
    · simp only [fillHalfLoop, hguard, if_false]
      rfl

theorem new_not_complete (x0 y0 x1 y1 : ℤ) :
    (BresenhamLine.new x0 y0 x1 y1).line_complete = false := rfl

theorem fill_flat_bottom_triangle_terminates (x0 y0 x1 y1 x2 y2 : ℤ) :
    (fill_flat_bottom_triangle x0 y0 x1 y1 x2 y2).isSome := by
  simp only [fill_flat_bottom_triangle]
  refine fillHalfLoop_terminates _ _ _ _ _ _ _ (new_inv x0 y0 x2 y2)
    (new_inv x1 y1 x2 y2) rfl rfl ?_ ?_ (Nat.lt_succ_self _)
  · intro hcc; rw [new_not_complete] at hcc; cases hcc
  · intro hcc; rw [new_not_complete] at hcc; cases hcc

theorem fill_flat_top_triangle_terminates (x0 y0 x1 y1 x2 y2 : ℤ) :
    (fill_flat_top_triangle x0 y0 x1 y1 x2 y2).isSome := by
  simp only [fill_flat_top_triangle]
  refine fillHalfLoop_terminates _ _ _ _ _ _ _ (new_inv x0 y0 x1 y1)
    (new_inv x0 y0 x2 y2) rfl rfl ?_ ?_ (Nat.lt_succ_self _)
  · intro hcc; rw [new_not_complete] at hcc; cases hcc
  · intro hcc; rw [new_not_complete] at hcc; cases hcc

/-- C5: for every three collinear vertices — including three vertices on
one horizontal line, where the split-point division is 0/0 (NaN in `f32`,
cast to 0 by `as u32`) — the control flow of `draw_filled_triangle`
terminates: both half fills exit their loops within the stated fuel and no
error arises.  (The proof does not even need collinearity: the loops
terminate on all inputs.) -/
theorem fill_match_isSome (o : Option Unit) (g : Option Unit) (ho : o.isSome = true)
    (hg : g.isSome = true) :
    (match o with | none => none | some _ => g).isSome = true := by
  cases o with
  | none => cases ho
  | some u => exact hg

set_option maxHeartbeats 1000000 in
theorem draw_filled_triangle_collinear_terminates (x0 y0 x1 y1 x2 y2 : ℚ)
    (hcol : (x1 - x0) * (y2 - y0) = (x2 - x0) * (y1 - y0)) :
    (draw_filled_triangle_control x0 y0 x1 y1 x2 y2).isSome = true :=
  fill_match_isSome _ _ (fill_flat_bottom_triangle_terminates _ _ _ _ _ _)
    (fill_flat_top_triangle_terminates _ _ _ _ _ _)

/-- Witness for C5 at a concrete degenerate (horizontal, collinear)
triangle. -/
theorem draw_filled_triangle_collinear_terminates_witness :
    ((1 : ℚ) - 0) * (0 - 0) = (2 - 0) * (0 - 0) ∧
    (draw_filled_triangle_control 0 0 1 0 2 0).isSome = true :=
  ⟨by ring, draw_filled_triangle_collinear_terminates 0 0 1 0 2 0 (by ring)⟩

/-! ## Midpoint circle: octant structure -/

theorem circleOctantLoop_isOct :
    ∀ (f : ℕ) (x y d : ℤ), y - x < (f : ℤ) →
      ∃ xe ye, IsOct xe ye x y (circleOctantLoop f x y d) := by
  intro f
  induction f with
  | zero =>
    intro x y d hf
    refine ⟨x, y, ?_⟩
    rw [show circleOctantLoop 0 x y d = [] from rfl]
    exact ⟨by omega, rfl, rfl⟩
  | succ n ih =>
    intro x y d hf
    by_cases hyx : y < x
    · refine ⟨x, y, ?_⟩
      rw [circleOctantLoop, if_pos hyx]
      exact ⟨hyx, rfl, rfl⟩
    · push_neg at hyx
      by_cases hd : 0 < d
      · obtain ⟨xe, ye, hsub⟩ := ih (x + 1) (y - 1)
          (d + 4 * ((x + 1) - (y - 1)) + 10) (by push_cast at hf ⊢; omega)
        refine ⟨xe, ye, ?_⟩
        rw [circleOctantLoop, if_neg (by omega), if_pos hd]
        exact ⟨rfl, rfl, hyx, Or.inr hsub⟩
      · obtain ⟨xe, ye, hsub⟩ := ih (x + 1) y (d + 4 * (x + 1) + 6)
          (by push_cast at hf ⊢; omega)
        refine ⟨xe, ye, ?_⟩
        rw [circleOctantLoop, if_neg (by omega), if_neg hd]
        exact ⟨rfl, rfl, hyx, Or.inl hsub⟩

theorem circleOctant_isOct (r : ℤ) :
    ∃ xe ye, IsOct xe ye 0 r (circleOctant r) :=
  circleOctantLoop_isOct (r.toNat + 2) 0 r (3 - 2 * r) (by push_cast; omega)

theorem isOct_xe_ge :
    ∀ (L : List (ℤ × ℤ)) (xe ye x y : ℤ), IsOct xe ye x y L → x ≤ xe := by
  intro L
  induction L with
  | nil => intro xe ye x y h; obtain ⟨h1, h2, h3⟩ := h; omega
  | cons p t ih =>
    intro xe ye x y h
    rcases h.2.2.2 with hc | hc <;> have := ih xe ye (x + 1) _ hc <;> omega

theorem isOct_ye_le :
    ∀ (L : List (ℤ × ℤ)) (xe ye x y : ℤ), IsOct xe ye x y L → ye ≤ y := by
  intro L
  induction L with
  | nil => intro xe ye x y h; obtain ⟨h1, h2, h3⟩ := h; omega
  | cons p t ih =>
    intro xe ye x y h
    rcases h.2.2.2 with hc | hc <;> have := ih xe ye (x + 1) _ hc <;> omega

theorem isOct_ye_lt_xe :
    ∀ (L : List (ℤ × ℤ)) (xe ye x y : ℤ), IsOct xe ye x y L → ye < xe := by
  intro L
  induction L with
  | nil => intro xe ye x y h; obtain ⟨h1, h2, h3⟩ := h; omega
  | cons p t ih =>
    intro xe ye x y h
    rcases h.2.2.2 with hc | hc <;> exact ih xe ye (x + 1) _ hc

theorem isOct_mem_bounds :
    ∀ (L : List (ℤ × ℤ)) (xe ye x y : ℤ), IsOct xe ye x y L →
      ∀ p ∈ L, x ≤ p.1 ∧ p.1 ≤ p.2 ∧ p.1 < xe ∧ ye ≤ p.2 ∧ p.2 ≤ y := by
  intro L
  induction L with
  | nil => intro xe ye x y _ p hp; exact absurd hp (List.not_mem_nil p)
  | cons q t ih =>
    intro xe ye x y h p hp
    obtain ⟨hq1, hq2, hxy, hcont⟩ := h
    rcases List.mem_cons.mp hp with rfl | hpt
    · have hxe : x + 1 ≤ xe := by
        rcases hcont with hc | hc <;> exact isOct_xe_ge t xe ye (x + 1) _ hc
      have hyeB : ye ≤ y := by
        rcases hcont with hc | hc <;> have := isOct_ye_le t xe ye (x + 1) _ hc <;> omega
      omega
    · rcases hcont with hc | hc <;> have := ih xe ye (x + 1) _ hc p hpt <;> omega

theorem isOct_antitone :
    ∀ (L : List (ℤ × ℤ)) (xe ye x y : ℤ), IsOct xe ye x y L →
      ∀ p ∈ L, ∀ q ∈ L, p.1 ≤ q.1 → q.2 ≤ p.2 := by
  intro L
  induction L with
  | nil => intro xe ye x y _ p hp; exact absurd hp (List.not_mem_nil p)
  | cons r t ih =>
    intro xe ye x y h p hp q hq hpq
    obtain ⟨hr1, hr2, hxy, hcont⟩ := h
    rcases List.mem_cons.mp hp with rfl | hpt
    · rcases List.mem_cons.mp hq with rfl | hqt
      · exact le_rfl
      · rcases hcont with hc | hc <;>
          have := isOct_mem_bounds t xe ye (x + 1) _ hc q hqt <;> omega
    · rcases List.mem_cons.mp hq with rfl | hqt
      · rcases hcont with hc | hc <;>
          have := isOct_mem_bounds t xe ye (x + 1) _ hc p hpt <;> omega
      · rcases hcont with hc | hc <;> exact ih xe ye (x + 1) _ hc p hpt q hqt hpq

theorem isOct_index_mem :
    ∀ (L : List (ℤ × ℤ)) (xe ye x y : ℤ), IsOct xe ye x y L →
      ∀ u : ℤ, x ≤ u → u < xe → ∃ b, (u, b) ∈ L := by
  intro L
  induction L with
  | nil => intro xe ye x y h u hu1 hu2; obtain ⟨_, rfl, _⟩ := h; omega
  | cons r t ih =>
    intro xe ye x y h u hu1 hu2
    obtain ⟨hr1, hr2, hxy, hcont⟩ := h
    by_cases hux : u = x
    · refine ⟨r.2, ?_⟩
      have hru : (u, r.2) = r := Prod.ext (by rw [hr1]; exact hux) rfl
      rw [hru]
      exact List.mem_cons_self r t
    · rcases hcont with hc | hc <;>
        obtain ⟨b, hb⟩ := ih xe ye (x + 1) _ hc u (by omega) hu2 <;>
        exact ⟨b, List.mem_cons_of_mem r hb⟩

theorem isOct_IVT :
    ∀ (L : List (ℤ × ℤ)) (xe ye x y : ℤ), IsOct xe ye x y L →
      ∀ v : ℤ, ye < v → v ≤ y → ∃ p ∈ L, p.2 = v := by
  intro L
  induction L with
  | nil => intro xe ye x y h v hv1 hv2; obtain ⟨_, _, rfl⟩ := h; omega
  | cons r t ih =>
    intro xe ye x y h v hv1 hv2
    obtain ⟨hr1, hr2, hxy, hcont⟩ := h
    by_cases hvy : v = y
    · exact ⟨r, List.mem_cons_self r t, by omega⟩
    · rcases hcont with hc | hc
      · obtain ⟨p, hp, hpv⟩ := ih xe ye (x + 1) y hc v hv1 (by omega)
        exact ⟨p, List.mem_cons_of_mem r hp, hpv⟩
      · obtain ⟨p, hp, hpv⟩ := ih xe ye (x + 1) (y - 1) hc v hv1 (by omega)
        exact ⟨p, List.mem_cons_of_mem r hp, hpv⟩

theorem isOct_IVT_from :
    ∀ (L : List (ℤ × ℤ)) (xe ye x y : ℤ), IsOct xe ye x y L →
      ∀ p ∈ L, ∀ v : ℤ, ye < v → v ≤ p.2 → ∃ q ∈ L, q.2 = v ∧ p.1 ≤ q.1 := by
  intro L
  induction L with
  | nil => intro xe ye x y _ p hp; exact absurd hp (List.not_mem_nil p)
  | cons r t ih =>
    intro xe ye x y h p hp v hv1 hv2
    rcases List.mem_cons.mp hp with rfl | hpt
    · have hble : v ≤ y := by
        have hr2 := h.2.1
        omega
      obtain ⟨q, hq, hqv⟩ := isOct_IVT (p :: t) xe ye x y h v hv1 hble
      have hqb := isOct_mem_bounds (p :: t) xe ye x y h q hq
      have hp1 := h.1
      exact ⟨q, hq, hqv, by omega⟩
    · obtain ⟨hr1, hr2, hxy, hcont⟩ := h
      rcases hcont with hc | hc <;>
        obtain ⟨q, hq, hqv, hq1⟩ := ih xe ye (x + 1) _ hc p hpt v hv1 hv2 <;>
        exact ⟨q, List.mem_cons_of_mem r hq, hqv, hq1⟩

theorem isOct_region_swap :
    ∀ (L : List (ℤ × ℤ)) (xe ye y0 : ℤ), IsOct xe ye 0 y0 L →
      ∀ W T : ℤ, 0 ≤ T →
      (∃ p ∈ L, (W = p.2 ∧ T ≤ p.1) ∨ (W = p.1 ∧ T ≤ p.2)) →
      ∃ p ∈ L, (T = p.2 ∧ W ≤ p.1) ∨ (T = p.1 ∧ W ≤ p.2) := by
  intro L xe ye y0 h W T hT hin
  obtain ⟨p, hp, hcase⟩ := hin
  have hb := isOct_mem_bounds L xe ye 0 y0 h p hp
  have hb1 : 0 ≤ p.1 := hb.1
  have hb2 : p.1 ≤ p.2 := hb.2.1
  have hb3 : p.1 < xe := hb.2.2.1
  have hb5 : p.2 ≤ y0 := hb.2.2.2.2
  rcases hcase with ⟨hW, hTle⟩ | ⟨hW, hTle⟩
  · obtain ⟨b', hb'⟩ := isOct_index_mem L xe ye 0 y0 h T hT (by omega)
    have hmono : p.2 ≤ b' :=
      isOct_antitone L xe ye 0 y0 h (T, b') hb' p hp (show T ≤ p.1 from hTle)
    exact ⟨(T, b'), hb', Or.inr ⟨rfl, show W ≤ b' by omega⟩⟩
  · by_cases hTxe : T < xe
    · obtain ⟨b', hb'⟩ := isOct_index_mem L xe ye 0 y0 h T hT hTxe
      have hguard : T ≤ b' := (isOct_mem_bounds L xe ye 0 y0 h (T, b') hb').2.1
      by_cases hTp : T ≤ p.1
      · have hmono : p.2 ≤ b' :=
          isOct_antitone L xe ye 0 y0 h (T, b') hb' p hp (show T ≤ p.1 from hTp)
        exact ⟨(T, b'), hb', Or.inr ⟨rfl, show W ≤ b' by omega⟩⟩
      · exact ⟨(T, b'), hb', Or.inr ⟨rfl, show W ≤ b' by omega⟩⟩
    · have hye : ye < xe := isOct_ye_lt_xe L xe ye 0 y0 h
      obtain ⟨q, hq, hqv, hq1⟩ :=
        isOct_IVT_from L xe ye 0 y0 h p hp T (by omega) hTle
      exact ⟨q, hq, Or.inl ⟨hqv.symm, by omega⟩⟩

/-! ## Circle symmetry: wireframe and filled sets -/

theorem rotAbout_four (cx cy : ℤ) (q : ℤ × ℤ) :
    rotAbout cx cy (rotAbout cx cy (rotAbout cx cy (rotAbout cx cy q))) = q := by
  obtain ⟨u, v⟩ := q
  simp only [rotAbout, Prod.mk.injEq]
  constructor <;> ring

theorem octet_rot_into (cx cy a b : ℤ) (q : ℤ × ℤ) :
    rotAbout cx cy q ∈
        ([(cx + a, cy + b), (cx - a, cy + b), (cx + a, cy - b), (cx - a, cy - b),
          (cx + b, cy + a), (cx - b, cy + a), (cx + b, cy - a), (cx - b, cy - a)] :
          List (ℤ × ℤ)) →
      q ∈
        ([(cx + a, cy + b), (cx - a, cy + b), (cx + a, cy - b), (cx - a, cy - b),
          (cx + b, cy + a), (cx - b, cy + a), (cx + b, cy - a), (cx - b, cy - a)] :
          List (ℤ × ℤ)) := by
  obtain ⟨u, v⟩ := q
  simp only [rotAbout, List.mem_cons, List.not_mem_nil, or_false, Prod.mk.injEq]
  rintro (⟨h1, h2⟩ | ⟨h1, h2⟩ | ⟨h1, h2⟩ | ⟨h1, h2⟩ |
      ⟨h1, h2⟩ | ⟨h1, h2⟩ | ⟨h1, h2⟩ | ⟨h1, h2⟩) <;> omega

theorem wireframe_rot_into (cx cy r : ℤ) (w : ℤ × ℤ)
    (hw : rotAbout cx cy w ∈ wireframeCirclePoints cx cy r) :
    w ∈ wireframeCirclePoints cx cy r := by
  rw [wireframeCirclePoints, List.mem_flatMap] at hw ⊢
  obtain ⟨p, hp, hq⟩ := hw
  exact ⟨p, hp, octet_rot_into cx cy p.1 p.2 w hq⟩

theorem wireframe_rot_mem (cx cy r : ℤ) (q : ℤ × ℤ) :
    rotAbout cx cy q ∈ wireframeCirclePoints cx cy r ↔
      q ∈ wireframeCirclePoints cx cy r := by
  constructor
  · exact wireframe_rot_into cx cy r q
  · intro hq
    have h4 : rotAbout cx cy (rotAbout cx cy (rotAbout cx cy (rotAbout cx cy q))) ∈
        wireframeCirclePoints cx cy r := by
      rw [rotAbout_four]
      exact hq
    exact wireframe_rot_into cx cy r _ (wireframe_rot_into cx cy r _
      (wireframe_rot_into cx cy r _ h4))

theorem filled_mem_abs (cx cy r : ℤ) (q : ℤ × ℤ) :
    filledCirclePixels cx cy r q ↔
      ∃ p ∈ circleOctant r,
        (((q.2 - cy).natAbs : ℤ) = p.2 ∧ ((q.1 - cx).natAbs : ℤ) ≤ p.1) ∨
        (((q.2 - cy).natAbs : ℤ) = p.1 ∧ ((q.1 - cx).natAbs : ℤ) ≤ p.2) := by
  obtain ⟨xe, ye, hoct⟩ := circleOctant_isOct r
  constructor
  · intro h
    obtain ⟨s, hs, hq⟩ := h
    obtain ⟨p, hp, hsp⟩ := List.mem_flatMap.mp hs
    have hb := isOct_mem_bounds (circleOctant r) xe ye 0 r hoct p hp
    have h1 : (0:ℤ) ≤ p.1 := hb.1
    have h2 : p.1 ≤ p.2 := hb.2.1
    refine ⟨p, hp, ?_⟩
    simp only [List.mem_cons, List.not_mem_nil, or_false] at hsp
    rcases hsp with rfl | rfl | rfl | rfl
    · have h := (horiz_points_mem (cx - p.1) (cy - p.2) (cx + p.1) q).mp hq
      omega
    · have h := (horiz_points_mem (cx - p.2) (cy - p.1) (cx + p.2) q).mp hq
      omega
    · have h := (horiz_points_mem (cx - p.2) (cy + p.1) (cx + p.2) q).mp hq
      omega
    · have h := (horiz_points_mem (cx - p.1) (cy + p.2) (cx + p.1) q).mp hq
      omega
  · intro h
    obtain ⟨p, hp, habs⟩ := h
    have hb := isOct_mem_bounds (circleOctant r) xe ye 0 r hoct p hp
    have h1 : (0:ℤ) ≤ p.1 := hb.1
    have h2 : p.1 ≤ p.2 := hb.2.1
    rcases habs with ⟨hrow, hcol⟩ | ⟨hrow, hcol⟩
    · by_cases hsgn : q.2 ≤ cy
      · exact ⟨((cx - p.1, cy - p.2), (cx + p.1, cy - p.2)),
          List.mem_flatMap.mpr ⟨p, hp, by simp⟩,
          (horiz_points_mem (cx - p.1) (cy - p.2) (cx + p.1) q).mpr (by omega)⟩
      · exact ⟨((cx - p.1, cy + p.2), (cx + p.1, cy + p.2)),
          List.mem_flatMap.mpr ⟨p, hp, by simp⟩,
          (horiz_points_mem (cx - p.1) (cy + p.2) (cx + p.1) q).mpr (by omega)⟩
    · by_cases hsgn : q.2 ≤ cy
      · exact ⟨((cx - p.2, cy - p.1), (cx + p.2, cy - p.1)),
          List.mem_flatMap.mpr ⟨p, hp, by simp⟩,
          (horiz_points_mem (cx - p.2) (cy - p.1) (cx + p.2) q).mpr (by omega)⟩
      · exact ⟨((cx - p.2, cy + p.1), (cx + p.2, cy + p.1)),
          List.mem_flatMap.mpr ⟨p, hp, by simp⟩,
          (horiz_points_mem (cx - p.2) (cy + p.1) (cx + p.2) q).mpr (by omega)⟩

theorem filled_rot_mem (cx cy r : ℤ) (q : ℤ × ℤ) :
    filledCirclePixels cx cy r (rotAbout cx cy q) ↔
      filledCirclePixels cx cy r q := by
  obtain ⟨xe, ye, hoct⟩ := circleOctant_isOct r
  rw [filled_mem_abs, filled_mem_abs]
  have e1 : (rotAbout cx cy q).2 - cy = q.1 - cx := by
    simp only [rotAbout]
    ring
  have e2 : (rotAbout cx cy q).1 - cx = -(q.2 - cy) := by
    simp only [rotAbout]
    ring
  rw [e1, e2, Int.natAbs_neg]
  constructor
  · intro h
    exact isOct_region_swap (circleOctant r) xe ye r hoct
      (((q.1 - cx).natAbs : ℤ)) (((q.2 - cy).natAbs : ℤ)) (by omega) h
  · intro h
    exact isOct_region_swap (circleOctant r) xe ye r hoct
      (((q.2 - cy).natAbs : ℤ)) (((q.1 - cx).natAbs : ℤ)) (by omega) h

/-- C8: for every radius at least 2 and every center, the set of logical
pixels emitted by `draw_wireframe_circle` and the set of logical pixels
emitted by `draw_filled_circle` are each invariant under rotation by 90
degrees about the center. -/
theorem circle_rotational_symmetry (cx cy r : ℤ) (hr : 2 ≤ r) :
    (∀ q : ℤ × ℤ, rotAbout cx cy q ∈ wireframeCirclePoints cx cy r ↔
        q ∈ wireframeCirclePoints cx cy r) ∧
    (∀ q : ℤ × ℤ, filledCirclePixels cx cy r (rotAbout cx cy q) ↔
        filledCirclePixels cx cy r q) :=
  ⟨fun q => wireframe_rot_mem cx cy r q, fun q => filled_rot_mem cx cy r q⟩

/-- Witness for C8 at center (0,0) and radius 2. -/
theorem circle_rotational_symmetry_witness :
    (2:ℤ) ≤ 2 ∧
    ((∀ q : ℤ × ℤ, rotAbout 0 0 q ∈ wireframeCirclePoints 0 0 2 ↔
        q ∈ wireframeCirclePoints 0 0 2) ∧
     (∀ q : ℤ × ℤ, filledCirclePixels 0 0 2 (rotAbout 0 0 q) ↔
        filledCirclePixels 0 0 2 q)) :=
  ⟨by decide, circle_rotational_symmetry 0 0 2 (by decide)⟩

end Apparatus
